import Mathlib

/-!
Verification of the cache-first data-access layer of the tradingBot
repository: the Redis connection manager with retry/backoff
(`markettrader/utils/redis_client.py`), the key/TTL schema and the model
codec (`trader_app/utils/redis_schema.py`), and the cache-first
orchestration (`trader_app/services/base_caching_service.py`).

Python code is shallowly embedded: exceptions become an explicit error
type threaded through `Except`/`Option`, the Redis store and the
collaborator callbacks become explicit outcome oracles, and machine
arithmetic (the backoff computation) is modelled over exact rationals.
-/

namespace TradingBot


/-- Exception classes observable from the Redis client code.
`connectionError`/`timeoutError` are the transient classes caught by the
first `except` clause of `_execute_with_retry`; `redisError` is the
non-transient `RedisError` of the second clause; `valueError` models the
`ValueError` raised by the key schema.  `retryExhaustedError` is the
wrapper class named by the spec's error taxonomy; the repository code
never defines nor constructs it, it exists here only so that the spec's
claim about it can be stated. -/
inductive PyExc where
  | connectionError (id : Nat)
  | timeoutError (id : Nat)
  | redisError (id : Nat)
  | valueError (msg : String)
  | retryExhaustedError (inner : PyExc)
  deriving DecidableEq

/-- Classification used by the first `except (ConnectionError, TimeoutError)`
clause of `_execute_with_retry`. -/
def PyExc.isTransient : PyExc → Bool
  | .connectionError _ => true
  | .timeoutError _ => true
  | _ => false

/-- Outcome of one attempt of the wrapped operation: the operation either
returns a value or raises an exception. -/
inductive Attempt (α : Type) where
  | ok (v : α)
  | raise (e : PyExc)
  deriving DecidableEq

/-- Recursion core of `RedisClient._execute_with_retry`.  `i` is the
Python `retry_count` (equal to the number of attempts already made, since
only transient failures continue the loop), `last` is `last_error`, and
`fuel` bounds the loop (`fuel = maxRetries + 1 - i` at every call, so the
zero-fuel branch mirrors the `while retry_count <= self.max_retries`
condition failing, after which Python raises `last_error`).  The result
pairs the returned/raised value with the total number of attempts made. -/
def execute_with_retry_go (outcomes : Nat → Attempt α) (maxRetries : Nat) :
    Nat → Nat → Option PyExc → Except PyExc α × Nat
  | i, 0, last => (.error (match last with | some e => e | none => .redisError 0), i)
  | i, fuel + 1, _ =>
    match outcomes i with
    | .ok v => (.ok v, i + 1)
    | .raise e =>
      if e.isTransient then
        if maxRetries < i + 1 then (.error e, i + 1)
        else execute_with_retry_go outcomes maxRetries (i + 1) fuel (some e)
      else (.error e, i + 1)

/-- Model of `RedisClient._execute_with_retry`: run the operation whose
successive attempts have the outcomes given by `outcomes`, retrying
transient errors up to `maxRetries` additional times.  Returns the final
result (value or raised exception) together with the number of attempts
made. -/
def execute_with_retry (outcomes : Nat → Attempt α) (maxRetries : Nat) :
    Except PyExc α × Nat :=
  execute_with_retry_go outcomes maxRetries 0 (maxRetries + 1) none

/-- Default of `self._backoff_factor` (0.5 seconds), from `RedisClient.__init__`. -/
def backoff_factor : ℚ := 1 / 2

/-- Default of `self._max_backoff` (30 seconds), from `RedisClient.__init__`. -/
def max_backoff : ℚ := 30

/-- The capped exponential backoff computed by
`RedisClient._handle_connection_error`:
`min(self._max_backoff, self._backoff_factor * (2 ** retry_count))`. -/
def compute_backoff (retryCount : Nat) : ℚ :=
  min max_backoff (backoff_factor * 2 ^ retryCount)

/-- Model of `RedisClient._handle_connection_error`.  `frac` stands for
`time.time() % 1`, a value in `[0, 1)`; the function returns
`backoff + jitter * (2 * frac - 1)` with `jitter = backoff * 0.1`.
Arithmetic is modelled over exact rationals. -/
def handle_connection_error (retryCount : Nat) (frac : ℚ) : ℚ :=
  let backoff := compute_backoff retryCount
  let jitter := backoff * (1 / 10)
  backoff + jitter * (2 * frac - 1)

/-- The Redis list database: one list of strings per key.  Keys not
present hold the empty list. -/
structure RedisStore where
  lists : String → List String

/-- Redis `LPUSH key value`: prepend to the list. -/
def lpushList (l : List String) (v : String) : List String := v :: l

/-- Resolution of a (possibly negative) LTRIM start index against a list
of length `n`: negative indices count from the end, clamped at 0. -/
def ltrimStart (n start : Int) : Int := if start < 0 then max 0 (n + start) else start

/-- Resolution of a (possibly negative) LTRIM stop index against a list
of length `n`. -/
def ltrimStop (n stop : Int) : Int := if stop < 0 then n + stop else stop

/-- Redis `LTRIM key start stop` semantics on one list: negative indices
count from the end, the kept range is inclusive, and an out-of-range or
crossed range leaves an empty list. -/
def ltrimList (l : List α) (start stop : Int) : List α :=
  if ltrimStart l.length start > ltrimStop l.length stop ∨ ltrimStop l.length stop < 0
  then []
  else ((l.drop (ltrimStart l.length start).toNat).take
        (ltrimStop l.length stop - ltrimStart l.length start + 1).toNat)

/-- Model of `RedisClient.add_to_list_limited` (success path): one
pipelined transaction doing `lpush(name, value)` then
`ltrim(name, 0, max_items - 1)`.  Returns the updated store and the
result of the `lpush` command (list length after the push), which is what
the Python function returns. -/
def add_to_list_limited (st : RedisStore) (name value : String) (maxItems : Int) :
    RedisStore × Int :=
  let afterPush := lpushList (st.lists name) value
  let afterTrim := ltrimList afterPush 0 (maxItems - 1)
  (⟨fun k => if k = name then afterTrim else st.lists k⟩, afterPush.length)

/-- Model of `RedisClient.ping`: call `client.ping()` through
`_execute_with_retry` and catch every exception, returning `False`
instead.  The return type `Bool` (not `Except`) reflects that `ping`
never raises. -/
def ping (outcomes : Nat → Attempt Bool) (maxRetries : Nat) : Bool :=
  match (execute_with_retry outcomes maxRetries).1 with
  | .ok v => v
  | .error _ => false

/-- Model of `RedisClient.get`: runs the `get` command through
`_execute_with_retry` and, unlike `ping`, propagates the classified error
to the caller. -/
def redis_get (outcomes : Nat → Attempt (Option String)) (maxRetries : Nat) :
    Except PyExc (Option String) :=
  (execute_with_retry outcomes maxRetries).1

/-- Attempt `j` of the operation raises a transient (connection/timeout)
error. -/
def TransientAt (outcomes : Nat → Attempt α) (j : Nat) : Prop :=
  ∃ e, outcomes j = .raise e ∧ e.isTransient = true

/-- Lexicographic comparison of character lists by code point, the order
Python's `sorted` uses on strings. -/
def charsLe : List Char → List Char → Bool
  | [], _ => true
  | _ :: _, [] => false
  | a :: s, b :: t => if a = b then charsLe s t else decide (a < b)

/-- Python string comparison `a <= b` (code-point lexicographic). -/
def strLe (a b : String) : Bool := charsLe a.data b.data

/-- Sorting relation on strings used to model Python's `sorted(params)`. -/
def strLeR (a b : String) : Prop := strLe a b = true

instance : DecidableRel strLeR := fun a b => by unfold strLeR; infer_instance

/-- The `RedisKeyType` enumeration of `trader_app/utils/redis_schema.py`. -/
inductive RedisKeyType where
  | account_summary
  | positions
  | stock_bars
  | stock_quote
  deriving DecidableEq

/-- The `.value` string of each `RedisKeyType` member. -/
def RedisKeyType.value : RedisKeyType → String
  | .account_summary => "account_summary"
  | .positions => "positions"
  | .stock_bars => "stock_bars"
  | .stock_quote => "stock_quote"

/-- The `required` table inside `get_key`. -/
def requiredParams : RedisKeyType → List String
  | .account_summary => ["user_id"]
  | .positions => ["user_id"]
  | .stock_bars => ["symbol", "timeframe"]
  | .stock_quote => ["symbol"]

/-- The `KEY_TTLS` table, via `get_ttl_for_key` (total on the four
recognized key types). -/
def get_ttl_for_key : RedisKeyType → Int
  | .account_summary => 300
  | .positions => 300
  | .stock_bars => 300
  | .stock_quote => 60

/-- A parameter mapping: an insertion-ordered association list from
parameter name to value.  A value of `none` models Python `None`; any
other value is modelled by the string Python's `str` would render it
to. -/
abbrev Params := List (String × Option String)

/-- Python `str` applied to a parameter value (`str(None) = "None"`). -/
def strOfParam : Option String → String
  | none => "None"
  | some s => s

/-- The value sanitization of `get_key`:
`str(v).replace(":", "_").replace("|", "_")`. -/
def sanitizeChar (c : Char) : Char := if c = ':' ∨ c = '|' then '_' else c

/-- Sanitize a whole rendered value. -/
def sanitize (s : String) : String := String.mk (s.data.map sanitizeChar)

/-- The test `r in params and params[r] is not None` for a required
parameter `r`. -/
def hasParam (params : Params) (r : String) : Bool :=
  match List.lookup r params with
  | some (some _) => true
  | _ => false

/-- Model of `redis_schema.get_key` (the second, `RedisKeyType`-based
definition, which shadows the first): validate required parameters then
compose `"cache:<key_type>:<k1>=<v1>:..."` over all parameters with keys
sorted; a `ValueError` becomes `Except.error`. -/
def get_key (keyType : RedisKeyType) (params : Params) : Except String String :=
  match (requiredParams keyType).find? (fun r => ! hasParam params r) with
  | some r => .error ("Missing required param " ++ r ++ " for key_type " ++ keyType.value)
  | none =>
    .ok (String.intercalate ":" ("cache" :: keyType.value ::
      ((params.map Prod.fst).insertionSort strLeR).map (fun k =>
        k ++ "=" ++ sanitize (strOfParam ((List.lookup k params).getD none)))))

/-- One issued `setex(key, ttl, payload)` store write. -/
structure SetexCall where
  key : String
  ttl : Int
  payload : String
  deriving DecidableEq

/-- Collaborator outcomes for one `BaseCachingService` call, indexed by
the data they receive: the store `get` outcome per key, the
deserializer/serializer outcomes per payload, and the `setex` outcome
(`some e` meaning the write raised `e`, which `set_cache` swallows). -/
structure CacheCtx (α : Type) where
  storeGet : String → Except PyExc (Option String)
  deser : String → Except PyExc α
  ser : α → Except PyExc String
  setexErr : String → Int → String → Option PyExc

/-- Model of `BaseCachingService.get_from_cache`: derive the key with
`get_key` (outside the `try`, so its `ValueError` propagates), then fetch
and deserialize inside a `try` whose `except` turns any failure into
`None`. -/
def get_from_cache {α : Type} (ctx : CacheCtx α) (keyType : RedisKeyType)
    (params : Params) : Except String (Option α) :=
  match get_key keyType params with
  | .error e => .error e
  | .ok key =>
    .ok (match ctx.storeGet key with
      | .error _ => none
      | .ok none => none
      | .ok (some raw) =>
        match ctx.deser raw with
        | .error _ => none
        | .ok v => some v)

/-- Model of `BaseCachingService.set_cache`: derive key and TTL (outside
the `try`), then serialize and `setex` inside a `try` that logs and skips
on any error.  The returned list is the issued `setex` calls; the two
branches on the `setex` outcome are identical because its exception is
swallowed. -/
def set_cache {α : Type} (ctx : CacheCtx α) (keyType : RedisKeyType)
    (params : Params) (value : α) : Except String (List SetexCall) :=
  match get_key keyType params with
  | .error e => .error e
  | .ok key =>
    match ctx.ser value with
    | .error _ => .ok []
    | .ok payload =>
      match ctx.setexErr key (get_ttl_for_key keyType) payload with
      | some _ => .ok [⟨key, get_ttl_for_key keyType, payload⟩]
      | none => .ok [⟨key, get_ttl_for_key keyType, payload⟩]

/-- Exceptions that can escape `cache_first`: a schema `ValueError` from
`get_key`, or whatever the caller-supplied fetch function raised. -/
inductive CfErr where
  | keyError (msg : String)
  | fetchError (e : PyExc)
  deriving DecidableEq

/-- Model of `BaseCachingService.cache_first`: consult `get_from_cache`;
on a non-`None` answer return it, otherwise call the fetch function and,
when its result is non-`None`, write it through `set_cache`.  The result
is paired with the number of fetch-function invocations and the list of
issued store writes. -/
def cache_first {α : Type} (ctx : CacheCtx α) (keyType : RedisKeyType)
    (params : Params) (fetchResult : Except PyExc (Option α)) :
    Except CfErr (Option α) × Nat × List SetexCall :=
  match get_from_cache ctx keyType params with
  | .error e => (.error (.keyError e), 0, [])
  | .ok (some v) => (.ok (some v), 0, [])
  | .ok none =>
    match fetchResult with
    | .error e => (.error (.fetchError e), 1, [])
    | .ok none => (.ok none, 1, [])
    | .ok (some d) =>
      match set_cache ctx keyType params d with
      | .error e => (.error (.keyError e), 1, [])
      | .ok calls => (.ok (some d), 1, calls)

/-- The cache lookup for key `k` does not produce a decodable value:
the store `get` raised, or the key is absent, or the stored text fails to
deserialize. -/
def CacheMiss {α : Type} (ctx : CacheCtx α) (k : String) : Prop :=
  (∃ e, ctx.storeGet k = .error e) ∨ ctx.storeGet k = .ok none ∨
  (∃ raw e, ctx.storeGet k = .ok (some raw) ∧ ctx.deser raw = .error e)

/-- Numeric value of a decimal digit character (`ord(c) - ord('0')`). -/
def charToDigitNat (c : Char) : Nat := c.toNat - 48

/-- Numeric value of a big-endian run of decimal digit characters, the
number `int` computes from such a string in Python. -/
def natOfDigits (l : List Char) : Nat :=
  l.foldl (fun acc c => acc * 10 + charToDigitNat c) 0

/-- Little-endian base-10 digits computed with explicit fuel, so that the
definition reduces inside the kernel; any `fuel ≥ n` gives the digits. -/
def toDigitsLE : Nat → Nat → List Nat
  | 0, _ => []
  | fuel + 1, n => if n = 0 then [] else n % 10 :: toDigitsLE fuel (n / 10)

/-- Decimal digit characters of `n`, most significant first, as Python
`str` renders a non-negative integer (so `"0"` for zero and no leading
zeros otherwise). -/
def coeffDigits (n : Nat) : List Char :=
  if n = 0 then ['0'] else ((toDigitsLE n n).reverse.map Nat.digitChar)

/-- A run of `k` zero characters. -/
def zeros (k : Nat) : List Char := List.replicate k '0'

/-- Python `decimal.Decimal` finite values as the (sign, coefficient,
exponent) triple of the decimal specification: the numeric value is
`(-1)^neg * coeff * 10^exp`, and `coeff` rendered by `str` has no leading
zeros. -/
structure Dec where
  neg : Bool
  coeff : Nat
  exp : Int
  deriving DecidableEq

/-- The digits of the exponent field of a scientific-notation rendering,
`"%+d" % e`: an explicit sign followed by the decimal digits. -/
def sciExpChars (e : Int) : List Char :=
  (if e < 0 then ['-'] else ['+']) ++ coeffDigits e.natAbs

/-- The `dotplace` computed by `Decimal.__str__`: the position of the
decimal point within the coefficient digit string, or 1 for scientific
notation. -/
def decDotplace (d : Dec) : Int :=
  if d.exp ≤ 0 ∧ d.exp + ((coeffDigits d.coeff).length : Int) > -6
  then d.exp + ((coeffDigits d.coeff).length : Int)
  else 1

/-- The integer-plus-fraction part built by `Decimal.__str__` from the
coefficient digit string and `dotplace`. -/
def decIntFrac (digits : List Char) (dotplace : Int) : List Char :=
  if dotplace ≤ 0 then '0' :: '.' :: (zeros (-dotplace).toNat ++ digits)
  else if (digits.length : Int) ≤ dotplace then digits ++ zeros (dotplace - digits.length).toNat
  else digits.take dotplace.toNat ++ '.' :: digits.drop dotplace.toNat

/-- Model of `str(Decimal)` (CPython `Decimal.__str__`) for finite
values: sign, integer/fraction parts placed by `dotplace`, and an `E`
exponent part exactly when `leftdigits ≠ dotplace`. -/
def decToChars (d : Dec) : List Char :=
  (if d.neg then ['-'] else []) ++
  decIntFrac (coeffDigits d.coeff) (decDotplace d) ++
  (if d.exp + ((coeffDigits d.coeff).length : Int) = decDotplace d then []
   else 'E' :: sciExpChars (d.exp + ((coeffDigits d.coeff).length : Int) - decDotplace d))

/-- The optional leading sign of a numeric string, as the `decimal`
parser's regular expression `(?P<sign>[-+])?` consumes it. -/
def decSignSplit (l : List Char) : Bool × List Char :=
  match l with
  | c :: t => if c = '-' then (true, t) else if c = '+' then (false, t) else (false, l)
  | [] => (false, l)

/-- Split a leading run of digit characters, as `\d*` consumes it. -/
def spanDigits (l : List Char) : List Char × List Char :=
  (l.takeWhile Char.isDigit, l.dropWhile Char.isDigit)

/-- Parse the exponent tail `[-+]?\d+` after `E`; `fracLen` is the length
of the fraction already read, so the stored exponent is the written
exponent minus `fracLen`. -/
def decExpTail (fracLen : Nat) (t : List Char) : Option Int :=
  match decSignSplit t with
  | (eneg, t1) =>
    match spanDigits t1 with
    | (eds, t2) =>
      if eds = [] ∨ t2 ≠ [] then none
      else some ((if eneg then -(natOfDigits eds : Int) else (natOfDigits eds : Int))
        - (fracLen : Int))

/-- Parse the end of a numeric string: either nothing (exponent 0) or an
`E`/`e` exponent part. -/
def decExpVal (fracLen : Nat) : List Char → Option Int
  | [] => some (-(fracLen : Int))
  | 'E' :: t => decExpTail fracLen t
  | 'e' :: t => decExpTail fracLen t
  | _ => none

/-- Model of `Decimal(str)` for finite numeric strings (the `decimal`
parser): optional sign, digits with an optional fraction, optional
exponent; the coefficient is `int(intpart + fracpart)` (leading zeros
dropped) and the exponent is the written exponent minus the fraction
length. -/
def decParse (s : List Char) : Option Dec :=
  match decSignSplit s with
  | (neg, r) =>
    match spanDigits r with
    | (intDs, r1) =>
      match r1 with
      | '.' :: t =>
        match spanDigits t with
        | (fracDs, r2) =>
          if intDs = [] ∧ fracDs = [] then none
          else
            match decExpVal fracDs.length r2 with
            | none => none
            | some e => some ⟨neg, natOfDigits (intDs ++ fracDs), e⟩
      | _ =>
        if intDs = [] then none
        else
          match decExpVal 0 r1 with
          | none => none
          | some e => some ⟨neg, natOfDigits intDs, e⟩

/-- Python `datetime` values, with timezone offsets restricted to whole
minutes (the granularity `timezone(timedelta(minutes=...))` uses and the
only one the layer's data carries): `tzMinutes = none` is a naive
datetime, `some o` an aware one whose `utcoffset` is `o` minutes. -/
structure Ts where
  year : Nat
  month : Nat
  day : Nat
  hour : Nat
  minute : Nat
  second : Nat
  microsecond : Nat
  tzMinutes : Option Int
  deriving DecidableEq

/-- Range constraint on a timezone offset (`datetime` requires it to be
strictly between -24h and +24h). -/
def tzOK : Option Int → Prop
  | none => True
  | some o => -1439 ≤ o ∧ o ≤ 1439

instance (o : Option Int) : Decidable (tzOK o) := by
  cases o with
  | none => exact .isTrue trivial
  | some x => exact inferInstanceAs (Decidable (-1439 ≤ x ∧ x ≤ 1439))

/-- The range constraints `datetime` enforces on its fields. -/
def Ts.Valid (t : Ts) : Prop :=
  1 ≤ t.year ∧ t.year ≤ 9999 ∧ 1 ≤ t.month ∧ t.month ≤ 12 ∧ 1 ≤ t.day ∧ t.day ≤ 31 ∧
  t.hour ≤ 23 ∧ t.minute ≤ 59 ∧ t.second ≤ 59 ∧ t.microsecond ≤ 999999 ∧
  tzOK t.tzMinutes

instance (t : Ts) : Decidable t.Valid := by
  unfold Ts.Valid
  infer_instance

/-- Zero-padded fixed-width decimal rendering (`"%04d" % n` and
friends). -/
def padNat (w n : Nat) : List Char :=
  zeros (w - (coeffDigits n).length) ++ coeffDigits n

/-- The `.ffffff` microsecond part: `isoformat` omits it exactly when the
microsecond is 0. -/
def tsFracChars (us : Nat) : List Char :=
  if us = 0 then [] else '.' :: padNat 6 us

/-- The `±HH:MM` offset part: `isoformat` renders it only for aware
datetimes. -/
def tsTzChars : Option Int → List Char
  | none => []
  | some o =>
    (if o < 0 then '-' else '+') :: (padNat 2 (o.natAbs / 60) ++ ':' :: padNat 2 (o.natAbs % 60))

/-- Model of `datetime.isoformat()`:
`YYYY-MM-DDTHH:MM:SS[.ffffff][±HH:MM]`. -/
def tsToChars (t : Ts) : List Char :=
  padNat 4 t.year ++ '-' :: padNat 2 t.month ++ '-' :: padNat 2 t.day ++
  'T' :: padNat 2 t.hour ++ ':' :: padNat 2 t.minute ++ ':' :: padNat 2 t.second ++
  (tsFracChars t.microsecond ++ tsTzChars t.tzMinutes)

/-- Read exactly `w` digit characters as a number. -/
def parseFixedNat (w : Nat) (l : List Char) : Option (Nat × List Char) :=
  if (l.take w).length = w ∧ (l.take w).all Char.isDigit then
    some (natOfDigits (l.take w), l.drop w)
  else none

/-- Require a literal character. -/
def expectChar (c : Char) : List Char → Option (List Char)
  | x :: t => if x = c then some t else none
  | [] => none

/-- Parse the optional `.ffffff` part. -/
def tsParseFrac : List Char → Option (Nat × List Char)
  | '.' :: t => parseFixedNat 6 t
  | r => some (0, r)

/-- Parse the optional `±HH:MM` offset part. -/
def tsParseTz : List Char → Option (Option Int × List Char)
  | [] => some (none, [])
  | '+' :: t =>
    match parseFixedNat 2 t with
    | none => none
    | some (h, r1) =>
      match expectChar ':' r1 with
      | none => none
      | some r2 =>
        match parseFixedNat 2 r2 with
        | none => none
        | some (m, r3) => some (some ((h : Int) * 60 + m), r3)
  | '-' :: t =>
    match parseFixedNat 2 t with
    | none => none
    | some (h, r1) =>
      match expectChar ':' r1 with
      | none => none
      | some r2 =>
        match parseFixedNat 2 r2 with
        | none => none
        | some (m, r3) => some (some (-((h : Int) * 60 + m)), r3)
  | _ => none

/-- Model of ISO-8601 datetime parsing (as pydantic performs it when
validating a `datetime` field from a string) for the exact shapes
`isoformat` produces. -/
def tsParse (l : List Char) : Option Ts :=
  match parseFixedNat 4 l with
  | none => none
  | some (y, r0) =>
  match expectChar '-' r0 with
  | none => none
  | some r1 =>
  match parseFixedNat 2 r1 with
  | none => none
  | some (mo, r2) =>
  match expectChar '-' r2 with
  | none => none
  | some r3 =>
  match parseFixedNat 2 r3 with
  | none => none
  | some (d, r4) =>
  match expectChar 'T' r4 with
  | none => none
  | some r5 =>
  match parseFixedNat 2 r5 with
  | none => none
  | some (h, r6) =>
  match expectChar ':' r6 with
  | none => none
  | some r7 =>
  match parseFixedNat 2 r7 with
  | none => none
  | some (mi, r8) =>
  match expectChar ':' r8 with
  | none => none
  | some r9 =>
  match parseFixedNat 2 r9 with
  | none => none
  | some (se, r10) =>
  match tsParseFrac r10 with
  | none => none
  | some (us, r11) =>
  match tsParseTz r11 with
  | none => none
  | some (tz, r12) =>
  if r12 = [] then some ⟨y, mo, d, h, mi, se, us, tz⟩ else none

/-- JSON documents, as `json.dumps`/`json.loads` exchange them (the
standard-library codec is an external collaborator, inverse on these
documents).  Numbers are integers only: the only native numeric fields
the layer's models carry are `int`s — exact decimals travel as strings. -/
inductive Json where
  | null
  | jstr (s : String)
  | jint (n : Int)
  | jarr (items : List Json)
  | jobj (fields : List (String × Json))

/-- Values of the supported primitive field kinds: strings, integers,
exact decimals, timestamps. -/
inductive Prim where
  | pstr (s : String)
  | pint (n : Int)
  | pdec (d : Dec)
  | pts (t : Ts)
  deriving DecidableEq

/-- The supported primitive field kinds. -/
inductive PrimKind where
  | kstr
  | kint
  | kdec
  | kts
  deriving DecidableEq

/-- A field value: a required primitive, an optional primitive, or a
list of primitives. -/
inductive FieldVal where
  | reqd (p : Prim)
  | opt (o : Option Prim)
  | lst (ps : List Prim)
  deriving DecidableEq

/-- A field's declared kind in a model class. -/
inductive FieldKind where
  | prim (k : PrimKind)
  | opt (k : PrimKind)
  | lst (k : PrimKind)
  deriving DecidableEq

/-- The declared fields of a model class: names with kinds, in
declaration order. -/
abbrev Schema := List (String × FieldKind)

/-- A model instance: field names with values, in declaration order. -/
abbrev Record := List (String × FieldVal)

/-- A primitive value inhabits a primitive kind. -/
def primHasKind : Prim → PrimKind → Bool
  | .pstr _, .kstr => true
  | .pint _, .kint => true
  | .pdec _, .kdec => true
  | .pts _, .kts => true
  | _, _ => false

/-- In-range side conditions of a primitive value (only timestamps have
any). -/
def primValid : Prim → Prop
  | .pts t => t.Valid
  | _ => True

instance (p : Prim) : Decidable (primValid p) := by
  cases p with
  | pstr s => exact .isTrue trivial
  | pint n => exact .isTrue trivial
  | pdec d => exact .isTrue trivial
  | pts t => exact inferInstanceAs (Decidable t.Valid)

/-- A field value inhabits a field kind. -/
def fieldHasKind : FieldVal → FieldKind → Bool
  | .reqd p, .prim k => primHasKind p k
  | .opt none, .opt _ => true
  | .opt (some p), .opt k => primHasKind p k
  | .lst ps, .lst k => ps.all (primHasKind · k)
  | _, _ => false

/-- In-range side conditions of a field value. -/
def fieldValid : FieldVal → Prop
  | .reqd p => primValid p
  | .opt none => True
  | .opt (some p) => primValid p
  | .lst ps => ∀ p ∈ ps, primValid p

instance (v : FieldVal) : Decidable (fieldValid v) := by
  cases v with
  | reqd p => exact inferInstanceAs (Decidable (primValid p))
  | opt o =>
    cases o with
    | none => exact .isTrue trivial
    | some p => exact inferInstanceAs (Decidable (primValid p))
  | lst ps => exact inferInstanceAs (Decidable (∀ p ∈ ps, primValid p))

/-- Encoding of one primitive, `model_dump` plus the `default` encoder of `serialize_model`:
strings and ints are native JSON, `Decimal` goes through `str(obj)`,
`datetime` through `obj.isoformat()`. -/
def encodePrim : Prim → Json
  | .pstr s => .jstr s
  | .pint n => .jint n
  | .pdec d => .jstr (String.mk (decToChars d))
  | .pts t => .jstr (String.mk (tsToChars t))

/-- Encoding of one field value (`None` becomes JSON `null`, lists become
arrays). -/
def encodeFieldVal : FieldVal → Json
  | .reqd p => encodePrim p
  | .opt none => .null
  | .opt (some p) => encodePrim p
  | .lst ps => .jarr (ps.map encodePrim)

/-- Encoding of a whole model instance as a JSON object. -/
def encodeRecord (r : Record) : Json :=
  .jobj (r.map fun nv => (nv.1, encodeFieldVal nv.2))

/-- Pydantic validation of one primitive from JSON (modelling the
external `model_validate` coercions the layer relies on: strings stay
strings, ints stay ints, `Decimal` and `datetime` are parsed back from
their string forms, and an int is accepted for a `Decimal` field). -/
def decodePrim (k : PrimKind) : Json → Option Prim
  | .jstr s =>
    match k with
    | .kstr => some (.pstr s)
    | .kint => none
    | .kdec => (decParse s.data).map Prim.pdec
    | .kts => (tsParse s.data).map Prim.pts
  | .jint n =>
    match k with
    | .kint => some (.pint n)
    | .kdec => some (.pdec ⟨decide (n < 0), n.natAbs, 0⟩)
    | _ => none
  | _ => none

/-- Pydantic validation of one field from JSON. -/
def decodeFieldVal : FieldKind → Json → Option FieldVal
  | .prim k, j => (decodePrim k j).map FieldVal.reqd
  | .opt _, .null => some (.opt none)
  | .opt k, j => (decodePrim k j).map (fun p => FieldVal.opt (some p))
  | .lst k, .jarr items => (items.mapM (decodePrim k)).map FieldVal.lst
  | .lst _, _ => none

/-- Pydantic validation of all declared fields against a JSON object's
fields: each declared name is looked up and validated at its declared
kind. -/
def decodeFields (fields : List (String × Json)) : Schema → Option Record
  | [] => some []
  | (n, k) :: s' =>
    match List.lookup n fields with
    | none => none
    | some j =>
      match decodeFieldVal k j with
      | none => none
      | some v =>
        match decodeFields fields s' with
        | none => none
        | some rest => some ((n, v) :: rest)

/-- Pydantic `model_validate` of one instance from a JSON document. -/
def decodeRecord (s : Schema) : Json → Option Record
  | .jobj fields => decodeFields fields s
  | _ => none

/-- A value `serialize_model` accepts: a single model instance or a
homogeneous list of instances. -/
inductive ModelVal where
  | single (r : Record)
  | listOf (rs : List Record)
  deriving DecidableEq

/-- Model of `redis_schema.serialize_model` at the JSON-document level:
a list maps each element through `model_dump`, a single instance becomes
one object.  (`json.dumps` of this document is the stored text.) -/
def serialize_model : ModelVal → Json
  | .single r => encodeRecord r
  | .listOf rs => .jarr (rs.map encodeRecord)

/-- Model of `redis_schema.deserialize_model`: if the top-level JSON
value is an array, validate every element as the model class, else
validate the single object. -/
def deserialize_model (s : Schema) : Json → Option ModelVal
  | .jarr items => (items.mapM (decodeRecord s)).map ModelVal.listOf
  | j => (decodeRecord s j).map ModelVal.single

/-- A record instantiates a schema: same names in the same order, each
value inhabiting the declared kind. -/
def recordWellTyped : Schema → Record → Bool
  | [], [] => true
  | (n, k) :: s', (m, v) :: r' => n == m && fieldHasKind v k && recordWellTyped s' r'
  | _, _ => false

/-- All values of a record are in range. -/
def recordValid (r : Record) : Prop := ∀ nv ∈ r, fieldValid nv.2

instance (r : Record) : Decidable (recordValid r) :=
  inferInstanceAs (Decidable (∀ nv ∈ r, fieldValid nv.2))

/-- Well-typedness of a single instance or list against a schema. -/
def modelWellTyped (s : Schema) : ModelVal → Bool
  | .single r => recordWellTyped s r
  | .listOf rs => rs.all (recordWellTyped s)

/-- Validity of a single instance or list. -/
def modelValid : ModelVal → Prop
  | .single r => recordValid r
  | .listOf rs => ∀ r ∈ rs, recordValid r

instance (x : ModelVal) : Decidable (modelValid x) := by
  cases x with
  | single r => exact inferInstanceAs (Decidable (recordValid r))
  | listOf rs => exact inferInstanceAs (Decidable (∀ r ∈ rs, recordValid r))

/-- The schema of `QuoteModel` (fields and declared types of
`trader_app/models/market.py`). -/
def quoteSchema : Schema :=
  [("symbol", .prim .kstr), ("timestamp", .prim .kts), ("ask_price", .prim .kdec),
   ("ask_size", .prim .kint), ("bid_price", .prim .kdec), ("bid_size", .prim .kint)]

/-- A concrete quote record: `bid_price = Decimal("150.10")`,
`ask_price = Decimal("150.20")`, aware UTC timestamp
`2024-05-01T15:30:00+00:00`. -/
def sampleQuote : Record :=
  [("symbol", .reqd (.pstr "AAPL")),
   ("timestamp", .reqd (.pts ⟨2024, 5, 1, 15, 30, 0, 0, some 0⟩)),
   ("ask_price", .reqd (.pdec ⟨false, 15020, -2⟩)),
   ("ask_size", .reqd (.pint 200)),
   ("bid_price", .reqd (.pdec ⟨false, 15010, -2⟩)),
   ("bid_size", .reqd (.pint 100))]

/-- A string carries an explicit ISO-8601 UTC offset when it ends in
`±HH:MM`: sign, two digits, colon, two digits. -/
def hasExplicitOffset (l : List Char) : Bool :=
  match l.reverse with
  | m2 :: m1 :: ':' :: h2 :: h1 :: c :: _ =>
    (c == '+' || c == '-') && m2.isDigit && m1.isDigit && h2.isDigit && h1.isDigit
  | _ => false

theorem execute_go_ok {α : Type} (outcomes : Nat → Attempt α) (m k : Nat) (v : α)
    (htr : ∀ j, j < k → TransientAt outcomes j)
    (hk : outcomes k = .ok v) (hkm : k ≤ m) :
    ∀ fuel i last, i + fuel = m + 1 → i ≤ k →
      execute_with_retry_go outcomes m i fuel last = (.ok v, k + 1) := by
  intro fuel
  induction fuel with
  | zero => intro i last hif hik; omega
  | succ f ih =>
    intro i last hif hik
    rw [execute_with_retry_go]
    rcases Nat.lt_or_ge i k with hlt | hge
    · obtain ⟨e, he, het⟩ := htr i hlt
      rw [he]
      simp only [het, if_true]
      rw [if_neg (by omega)]
      exact ih (i + 1) (some e) (by omega) (by omega)
    · have hik' : i = k := le_antisymm hik hge
      subst hik'
      rw [hk]

theorem execute_go_exhaust {α : Type} (outcomes : Nat → Attempt α) (m : Nat) (e : PyExc)
    (htr : ∀ j, j < m → TransientAt outcomes j)
    (hm : outcomes m = .raise e) (het : e.isTransient = true) :
    ∀ fuel i last, i + fuel = m + 1 → i ≤ m →
      execute_with_retry_go outcomes m i fuel last = (.error e, m + 1) := by
  intro fuel
  induction fuel with
  | zero => intro i last hif him; omega
  | succ f ih =>
    intro i last hif him
    rw [execute_with_retry_go]
    rcases Nat.lt_or_ge i m with hlt | hge
    · obtain ⟨e', he', het'⟩ := htr i hlt
      rw [he']
      simp only [het', if_true]
      rw [if_neg (by omega)]
      exact ih (i + 1) (some e') (by omega) (by omega)
    · have him : i = m := by omega
      subst him
      rw [hm]
      simp only [het, if_true]
      rw [if_pos (by omega)]

/-- C5 (amended): with `max_retries = m`, if the first `k` attempts raise
transient errors and attempt `k` (the `k+1`-st attempt) succeeds with
`k ≤ m`, `_execute_with_retry` returns that success after exactly `k + 1`
attempts; and if all of attempts `0..m` raise transient errors, it
re-raises the last observed transient error itself — not a
`RetryExhaustedError` wrapper — after exactly `m + 1` attempts. -/
theorem execute_with_retry_retry_behavior {α : Type}
    (outcomes : Nat → Attempt α) (m : Nat) :
    (∀ k v, k ≤ m → (∀ j, j < k → TransientAt outcomes j) → outcomes k = .ok v →
       execute_with_retry outcomes m = (.ok v, k + 1)) ∧
    (∀ e, (∀ j, j < m → TransientAt outcomes j) → outcomes m = .raise e →
       e.isTransient = true →
       execute_with_retry outcomes m = (.error e, m + 1)) := by
  constructor
  · intro k v hkm htr hk
    exact execute_go_ok outcomes m k v htr hk hkm (m + 1) 0 none (by omega) (by omega)
  · intro e htr hm het
    exact execute_go_exhaust outcomes m e htr hm het (m + 1) 0 none (by omega) (by omega)

/-- Witness for C5: two transient connection errors then success with
`max_retries = 3` gives success in exactly 3 attempts; four transient
errors with `max_retries = 3` raises the last one after 4 attempts. -/
theorem execute_with_retry_retry_behavior_witness :
    execute_with_retry
        (fun j => if j < 2 then .raise (.connectionError j) else (.ok true : Attempt Bool)) 3
      = (.ok true, 3) ∧
    execute_with_retry (fun j => (.raise (.connectionError j) : Attempt Bool)) 3
      = (.error (.connectionError 3), 4) := by
  constructor
  · exact (execute_with_retry_retry_behavior _ 3).1 2 true (by omega)
      (fun j hj => ⟨.connectionError j, by simp [hj], rfl⟩) (by simp)
  · exact (execute_with_retry_retry_behavior _ 3).2 (.connectionError 3)
      (fun j hj => ⟨.connectionError j, rfl, rfl⟩) rfl rfl

/-- C5 counterexample: with `max_retries = 1` and every attempt raising a
transient `ConnectionError`, `_execute_with_retry` raises the last
`ConnectionError` itself after 2 attempts; the raised value is not the
`RetryExhaustedError`-wrapped error that the claim describes (no such
wrapper exists in the code). -/
theorem execute_with_retry_no_wrapper :
    execute_with_retry (fun j => (.raise (.connectionError j) : Attempt Bool)) 1
      = (.error (.connectionError 1), 2) ∧
    (Except.error (PyExc.connectionError 1) : Except PyExc Bool)
      ≠ .error (.retryExhaustedError (.connectionError 1)) := by
  refine ⟨rfl, fun h => ?_⟩
  exact PyExc.noConfusion (Except.error.inj h)

theorem compute_backoff_nonneg (retryCount : Nat) : 0 ≤ compute_backoff retryCount := by
  unfold compute_backoff backoff_factor max_backoff
  positivity

/-- C6: the computed wait equals
`min(max_backoff, backoff_factor * 2^attempt)` plus a jitter of absolute
value at most 10% of that backoff, with `backoff_factor = 0.5` and
`max_backoff = 30`; hence the wait always lies within
`[0.9, 1.1] * min(max_backoff, backoff_factor * 2^attempt)`. -/
theorem handle_connection_error_bounds (retryCount : Nat) (frac : ℚ)
    (h0 : 0 ≤ frac) (h1 : frac < 1) :
    (∃ j : ℚ, |j| ≤ compute_backoff retryCount / 10 ∧
       handle_connection_error retryCount frac = compute_backoff retryCount + j) ∧
    (9 / 10) * compute_backoff retryCount ≤ handle_connection_error retryCount frac ∧
    handle_connection_error retryCount frac ≤ (11 / 10) * compute_backoff retryCount := by
  have hb : 0 ≤ compute_backoff retryCount := compute_backoff_nonneg retryCount
  have habs : |2 * frac - 1| ≤ 1 := by
    rw [abs_le]; constructor <;> linarith
  have hval : handle_connection_error retryCount frac
      = compute_backoff retryCount + compute_backoff retryCount * (1 / 10) * (2 * frac - 1) := by
    simp [handle_connection_error]
  refine ⟨⟨compute_backoff retryCount * (1 / 10) * (2 * frac - 1), ?_, hval⟩, ?_, ?_⟩
  · rw [abs_mul, abs_of_nonneg (by positivity : (0:ℚ) ≤ compute_backoff retryCount * (1 / 10))]
    calc compute_backoff retryCount * (1 / 10) * |2 * frac - 1|
        ≤ compute_backoff retryCount * (1 / 10) * 1 := by
          apply mul_le_mul_of_nonneg_left habs (by positivity)
      _ = compute_backoff retryCount / 10 := by ring
  · rw [hval]; nlinarith
  · rw [hval]; nlinarith

/-- Witness for C6: at attempt 1 (backoff `min(30, 0.5 * 2) = 1`) with
jitter fraction `1/4`, the wait lies within the stated bounds. -/
theorem handle_connection_error_bounds_witness :
    (9 / 10) * compute_backoff 1 ≤ handle_connection_error 1 (1 / 4) ∧
    handle_connection_error 1 (1 / 4) ≤ (11 / 10) * compute_backoff 1 :=
  (handle_connection_error_bounds 1 (1 / 4) (by norm_num) (by norm_num)).2

theorem ltrimList_zero_take {α : Type} (l : List α) (k : Int) (hk : 0 < k) :
    ltrimList l 0 (k - 1) = List.take k.toNat l := by
  have hs : ltrimStart l.length 0 = 0 := by unfold ltrimStart; rw [if_neg (by omega)]
  have he : ltrimStop l.length (k - 1) = k - 1 := by unfold ltrimStop; rw [if_neg (by omega)]
  unfold ltrimList
  rw [hs, he, if_neg (by omega : ¬ ((0:Int) > k - 1 ∨ k - 1 < 0))]
  simp only [Int.toNat_zero, List.drop_zero]
  congr 1
  omega

/-- C9: after a successful `add_to_list_limited(key, value, max_items)`
with positive `max_items`, the list stored at `key` has at most
`max_items` entries and the freshly added value is its first element. -/
theorem add_to_list_limited_bounded (st : RedisStore) (name value : String)
    (maxItems : Int) (hpos : 0 < maxItems) :
    (((add_to_list_limited st name value maxItems).1.lists name).length : Int) ≤ maxItems ∧
    ((add_to_list_limited st name value maxItems).1.lists name).head? = some value := by
  have hres : (add_to_list_limited st name value maxItems).1.lists name
      = List.take maxItems.toNat (value :: st.lists name) := by
    show (if name = name then ltrimList (lpushList (st.lists name) value) 0 (maxItems - 1)
          else st.lists name) = _
    rw [if_pos rfl, ltrimList_zero_take _ maxItems hpos]
    rfl
  rw [hres]
  constructor
  · have hlen : (List.take maxItems.toNat (value :: st.lists name)).length ≤ maxItems.toNat := by
      simp [List.length_take]
    omega
  · obtain ⟨n, hn⟩ : ∃ n, maxItems.toNat = n + 1 :=
      ⟨maxItems.toNat - 1, by omega⟩
    rw [hn, List.take_succ_cons, List.head?_cons]

/-- Witness for C9: adding to a two-element list with `max_items = 2`
leaves at most 2 entries with the new value first. -/
theorem add_to_list_limited_bounded_witness :
    (((add_to_list_limited ⟨fun _ => ["a", "b"]⟩ "k" "v" 2).1.lists "k").length : Int) ≤ 2 ∧
    ((add_to_list_limited ⟨fun _ => ["a", "b"]⟩ "k" "v" 2).1.lists "k").head? = some "v" :=
  add_to_list_limited_bounded ⟨fun _ => ["a", "b"]⟩ "k" "v" 2 (by norm_num)

theorem execute_go_ok_source {α : Type} (outcomes : Nat → Attempt α) (m : Nat) (v : α) :
    ∀ fuel i last, (execute_with_retry_go outcomes m i fuel last).1 = .ok v →
      ∃ j, outcomes j = .ok v := by
  intro fuel
  induction fuel with
  | zero => intro i last h; simp [execute_with_retry_go] at h
  | succ f ih =>
    intro i last h
    rw [execute_with_retry_go] at h
    cases ho : outcomes i with
    | ok w =>
      rw [ho] at h
      simp only at h
      exact ⟨i, by rw [ho]; exact congrArg Attempt.ok (Except.ok.inj h)⟩
    | raise e =>
      rw [ho] at h
      by_cases ht : e.isTransient
      · simp only [ht, if_true] at h
        by_cases hm : m < i + 1
        · simp [hm] at h
        · rw [if_neg hm] at h
          exact ih (i + 1) (some e) h
      · simp [ht] at h

/-- C10: `ping` never raises: it returns `True` exactly when some attempt
within the retry budget got an answer from the store, and `False` on any
failure (non-transient error or exhausted retries) — while `get`, run
through the same retry wrapper, propagates the classified error in
exactly those failure cases. -/
theorem ping_never_raises (outcomes : Nat → Attempt Bool) (m : Nat)
    (hok : ∀ j v, outcomes j = .ok v → v = true) :
    (ping outcomes m = true ↔ ∃ v, (execute_with_retry outcomes m).1 = .ok v) ∧
    (∀ e, (execute_with_retry outcomes m).1 = .error e → ping outcomes m = false) ∧
    (∀ (outcomes2 : Nat → Attempt (Option String)) (e : PyExc),
       (execute_with_retry outcomes2 m).1 = .error e → redis_get outcomes2 m = .error e) := by
  refine ⟨⟨?_, ?_⟩, ?_, ?_⟩
  · intro hp
    unfold ping at hp
    cases hr : (execute_with_retry outcomes m).1 with
    | ok v => exact ⟨v, rfl⟩
    | error e => rw [hr] at hp; simp at hp
  · rintro ⟨v, hv⟩
    have hsrc := execute_go_ok_source outcomes m v (m + 1) 0 none hv
    obtain ⟨j, hj⟩ := hsrc
    have : v = true := hok j v hj
    unfold ping
    rw [hv, this]
  · intro e he
    unfold ping
    rw [he]
  · intro outcomes2 e he
    unfold redis_get
    exact he

/-- Witness for C10: with the store answering on the first attempt,
`ping` returns `True`. -/
theorem ping_never_raises_witness :
    ping (fun _ => (.ok true : Attempt Bool)) 0 = true :=
  (ping_never_raises (fun _ => .ok true) 0
    (fun _ v h => by exact (Attempt.ok.inj h).symm)).1.mpr ⟨true, rfl⟩

theorem charsLe_total (a b : List Char) : charsLe a b = true ∨ charsLe b a = true := by
  induction a generalizing b with
  | nil => left; rfl
  | cons x s ih =>
    cases b with
    | nil => right; rfl
    | cons y t =>
      by_cases hxy : x = y
      · subst hxy
        rcases ih t with h | h
        · left; simp [charsLe, h]
        · right; simp [charsLe, h]
      · rcases lt_or_gt_of_ne hxy with h | h
        · left; simp [charsLe, hxy, h]
        · right; simp [charsLe, Ne.symm hxy, h, not_lt_of_gt h]

theorem charsLe_antisymm (a b : List Char) (hab : charsLe a b = true)
    (hba : charsLe b a = true) : a = b := by
  induction a generalizing b with
  | nil =>
    cases b with
    | nil => rfl
    | cons y t => simp [charsLe] at hba
  | cons x s ih =>
    cases b with
    | nil => simp [charsLe] at hab
    | cons y t =>
      by_cases hxy : x = y
      · subst hxy
        simp only [charsLe, if_pos rfl] at hab hba
        rw [ih t hab hba]
      · simp only [charsLe, if_neg hxy, if_neg (Ne.symm hxy), decide_eq_true_eq] at hab hba
        exact absurd hba (not_lt_of_gt hab)

theorem charsLe_trans (a b c : List Char) (hab : charsLe a b = true)
    (hbc : charsLe b c = true) : charsLe a c = true := by
  induction a generalizing b c with
  | nil => rfl
  | cons x s ih =>
    cases b with
    | nil => simp [charsLe] at hab
    | cons y t =>
      cases c with
      | nil => simp [charsLe] at hbc
      | cons z u =>
        by_cases hxy : x = y <;> by_cases hyz : y = z
        · subst hxy; subst hyz
          simp only [charsLe, if_pos rfl] at hab hbc ⊢
          exact ih t u hab hbc
        · subst hxy
          simp only [charsLe, if_neg hyz] at hbc ⊢
          exact hbc
        · subst hyz
          simp only [charsLe, if_neg hxy] at hab ⊢
          exact hab
        · simp only [charsLe, if_neg hxy, if_neg hyz, decide_eq_true_eq] at hab hbc
          have hxz : x < z := lt_trans hab hbc
          simp [charsLe, ne_of_lt hxz, hxz]

theorem lookup_eq_of_perm {β : Type} {p1 p2 : List (String × β)}
    (h : p1.Perm p2) :
    (p1.map Prod.fst).Nodup → ∀ a, List.lookup a p1 = List.lookup a p2 := by
  induction h with
  | nil => intro _ a; rfl
  | cons x h ih =>
    intro nd a
    obtain ⟨x1, x2⟩ := x
    have ndt : ((_ : List (String × β)).map Prod.fst).Nodup :=
      (List.nodup_cons.mp (by simpa using nd)).2
    by_cases hax : a = x1
    · subst hax; simp [List.lookup]
    · simp only [List.lookup, beq_eq_false_iff_ne, ne_eq, hax, not_false_eq_true,
        beq_iff_eq, if_neg]
      rw [show (a == x1) = false from beq_eq_false_iff_ne.mpr hax]
      exact ih ndt a
  | swap x y l =>
    intro nd a
    obtain ⟨x1, x2⟩ := x
    obtain ⟨y1, y2⟩ := y
    have hxy : y1 ≠ x1 := by
      simp only [List.map_cons, List.nodup_cons, List.mem_cons] at nd
      exact fun hc => nd.1 (Or.inl hc)
    simp only [List.lookup]
    by_cases hay : a = y1 <;> by_cases haxx : a = x1
    · exact absurd (hay.symm.trans haxx) hxy
    · rw [show (a == y1) = true from beq_iff_eq.mpr hay,
        show (a == x1) = false from beq_eq_false_iff_ne.mpr haxx]
    · rw [show (a == y1) = false from beq_eq_false_iff_ne.mpr hay,
        show (a == x1) = true from beq_iff_eq.mpr haxx]
    · rw [show (a == y1) = false from beq_eq_false_iff_ne.mpr hay,
        show (a == x1) = false from beq_eq_false_iff_ne.mpr haxx]
  | trans h12 h23 ih12 ih23 =>
    intro nd a
    have nd2 := (h12.map Prod.fst).nodup nd
    exact (ih12 nd a).trans (ih23 nd2 a)

theorem insertionSort_eq_of_perm {l1 l2 : List String} (h : l1.Perm l2) :
    l1.insertionSort strLeR = l2.insertionSort strLeR := by
  haveI : IsTotal String strLeR := ⟨fun a b => charsLe_total a.data b.data⟩
  haveI : IsTrans String strLeR := ⟨fun a b c => charsLe_trans a.data b.data c.data⟩
  haveI : IsAntisymm String strLeR :=
    ⟨fun a b hab hba => by
      cases a; cases b
      exact congrArg String.mk (charsLe_antisymm _ _ hab hba)⟩
  exact List.eq_of_perm_of_sorted
    ((List.perm_insertionSort _ l1).trans (h.trans (List.perm_insertionSort _ l2).symm))
    (List.sorted_insertionSort _ l1)
    (List.sorted_insertionSort _ l2)

theorem find?_congr_fun {α : Type} (f g : α → Bool) (hfg : ∀ x, f x = g x) :
    ∀ l : List α, l.find? f = l.find? g := by
  intro l
  induction l with
  | nil => rfl
  | cons x t ih =>
    simp only [List.find?, hfg x]
    cases g x <;> simp [ih]

/-- C7: for every recognized resource type and complete, valid parameter
mapping, `get_key` is invariant under permutation of the parameter
mapping's insertion order. -/
theorem get_key_perm_invariant (kt : RedisKeyType) (p1 p2 : Params)
    (hperm : p1.Perm p2) (hnd : (p1.map Prod.fst).Nodup)
    (hvalid : (requiredParams kt).all (hasParam p1) = true) :
    get_key kt p1 = get_key kt p2 := by
  have hlook : ∀ a, List.lookup a p1 = List.lookup a p2 := lookup_eq_of_perm hperm hnd
  have hkeys : (p1.map Prod.fst).insertionSort strLeR
      = (p2.map Prod.fst).insertionSort strLeR :=
    insertionSort_eq_of_perm (hperm.map Prod.fst)
  have hhas : ∀ r, hasParam p1 r = hasParam p2 r := by
    intro r; unfold hasParam; rw [hlook r]
  have hfun : (fun k => k ++ "=" ++ sanitize (strOfParam ((List.lookup k p1).getD none)))
      = (fun k => k ++ "=" ++ sanitize (strOfParam ((List.lookup k p2).getD none))) :=
    funext fun k => by rw [hlook k]
  unfold get_key
  rw [find?_congr_fun _ _ (fun r => by rw [hhas r]) (requiredParams kt), hkeys, hfun]

/-- Witness for C7: the two insertion orders of
`{symbol: "AAPL", timeframe: "1Day"}` give the same `stock_bars` key. -/
theorem get_key_perm_invariant_witness :
    get_key .stock_bars [("timeframe", some "1Day"), ("symbol", some "AAPL")]
      = get_key .stock_bars [("symbol", some "AAPL"), ("timeframe", some "1Day")] :=
  get_key_perm_invariant .stock_bars _ _
    (List.Perm.swap _ _ _) (by decide) (by decide)

theorem get_from_cache_of_miss {α : Type} (ctx : CacheCtx α)
    (kt : RedisKeyType) (params : Params) (k : String)
    (hkey : get_key kt params = .ok k) (hm : CacheMiss ctx k) :
    get_from_cache ctx kt params = .ok none := by
  unfold get_from_cache
  rw [hkey]
  dsimp only
  rcases hm with ⟨e, he⟩ | he | ⟨raw, e, hg, hd⟩
  · rw [he]
  · rw [he]
  · rw [hg]
    dsimp only
    rw [hd]

theorem get_from_cache_of_hit {α : Type} (ctx : CacheCtx α)
    (kt : RedisKeyType) (params : Params) (k raw : String) (v : α)
    (hkey : get_key kt params = .ok k)
    (hg : ctx.storeGet k = .ok (some raw)) (hd : ctx.deser raw = .ok v) :
    get_from_cache ctx kt params = .ok (some v) := by
  unfold get_from_cache
  rw [hkey]
  dsimp only
  rw [hg]
  dsimp only
  rw [hd]

theorem set_cache_ok {α : Type} (ctx : CacheCtx α)
    (kt : RedisKeyType) (params : Params) (k : String)
    (hkey : get_key kt params = .ok k) (d : α) :
    ∃ calls, set_cache ctx kt params d = .ok calls := by
  unfold set_cache
  rw [hkey]
  dsimp only
  cases ctx.ser d with
  | error e => exact ⟨[], rfl⟩
  | ok p =>
    dsimp only
    cases ctx.setexErr k (get_ttl_for_key kt) p with
    | none => exact ⟨_, rfl⟩
    | some e => exact ⟨_, rfl⟩

/-- C1: a cache-read failure (store `get` raising, or the stored text
failing to decode) makes `cache_first` behave as a miss and is never
raised to the caller, and on every miss — including the ordinary
absent-key one — any cache-write failure (serializer or `setex` raising)
after the fetch is swallowed: for every serializer/`setex` outcome the
call returns exactly the fetch function's result. -/
theorem cache_first_isolates_cache_failures {α : Type} (ctx : CacheCtx α)
    (kt : RedisKeyType) (params : Params) (k : String)
    (hkey : get_key kt params = .ok k)
    (hmiss : CacheMiss ctx k) :
    ∀ d : Option α, (cache_first ctx kt params (.ok d)).1 = .ok d := by
  intro d
  unfold cache_first
  rw [get_from_cache_of_miss ctx kt params k hkey hmiss]
  dsimp only
  cases d with
  | none => rfl
  | some d =>
    dsimp only
    obtain ⟨calls, hc⟩ := set_cache_ok ctx kt params k hkey d
    rw [hc]

/-- Witness for C1: with the store `get` raising a connection error, the
deserializer raising, and `setex` raising, `cache_first` still returns
the fetched value; and on a plain absent-key miss with `setex` raising,
it also returns the fetched value. -/
theorem cache_first_isolates_cache_failures_witness :
    (cache_first
      (⟨fun _ => .error (.connectionError 0), fun _ => .error (.redisError 0),
        fun _ => .ok "1", fun _ _ _ => some (.timeoutError 0)⟩ : CacheCtx Bool)
      .stock_quote [("symbol", some "AAPL")] (.ok (some true))).1 = .ok (some true) ∧
    (cache_first
      (⟨fun _ => .ok none, fun _ => .ok true,
        fun _ => .ok "1", fun _ _ _ => some (.timeoutError 0)⟩ : CacheCtx Bool)
      .stock_quote [("symbol", some "AAPL")] (.ok (some true))).1 = .ok (some true) :=
  ⟨cache_first_isolates_cache_failures _ .stock_quote [("symbol", some "AAPL")]
      "cache:stock_quote:symbol=AAPL" rfl (Or.inl ⟨.connectionError 0, rfl⟩) (some true),
   cache_first_isolates_cache_failures _ .stock_quote [("symbol", some "AAPL")]
      "cache:stock_quote:symbol=AAPL" rfl (Or.inr (Or.inl rfl)) (some true)⟩

/-- C3: the fetch function is invoked exactly 0 times when the store
holds a valid, decodable entry for the derived key, and exactly once on a
genuine miss, whatever the fetch outcome is. -/
theorem cache_first_fetch_count {α : Type} (ctx : CacheCtx α)
    (kt : RedisKeyType) (params : Params) (k : String)
    (fetchResult : Except PyExc (Option α))
    (hkey : get_key kt params = .ok k) :
    (∀ raw v, ctx.storeGet k = .ok (some raw) → ctx.deser raw = .ok v →
       (cache_first ctx kt params fetchResult).2.1 = 0) ∧
    (CacheMiss ctx k → (cache_first ctx kt params fetchResult).2.1 = 1) := by
  constructor
  · intro raw v hg hd
    unfold cache_first
    rw [get_from_cache_of_hit ctx kt params k raw v hkey hg hd]
  · intro hm
    unfold cache_first
    rw [get_from_cache_of_miss ctx kt params k hkey hm]
    dsimp only
    cases fetchResult with
    | error e => rfl
    | ok d =>
      cases d with
      | none => rfl
      | some d =>
        dsimp only
        obtain ⟨calls, hc⟩ := set_cache_ok ctx kt params k hkey d
        rw [hc]

/-- Witness for C3: a decodable entry gives 0 fetch invocations; an empty
store gives exactly 1. -/
theorem cache_first_fetch_count_witness :
    (cache_first
      (⟨fun _ => .ok (some "t"), fun _ => .ok true, fun _ => .ok "1",
        fun _ _ _ => none⟩ : CacheCtx Bool)
      .stock_quote [("symbol", some "AAPL")] (.ok (some true))).2.1 = 0 ∧
    (cache_first
      (⟨fun _ => .ok none, fun _ => .ok true, fun _ => .ok "1",
        fun _ _ _ => none⟩ : CacheCtx Bool)
      .stock_quote [("symbol", some "AAPL")] (.ok (some true))).2.1 = 1 :=
  ⟨(cache_first_fetch_count _ .stock_quote [("symbol", some "AAPL")] "cache:stock_quote:symbol=AAPL" _
      rfl).1 "t" true rfl rfl,
   (cache_first_fetch_count _ .stock_quote [("symbol", some "AAPL")] "cache:stock_quote:symbol=AAPL" _
      rfl).2 (Or.inr (Or.inl rfl))⟩

/-- C4: in a `cache_first` call that misses, a non-null fetch result
whose serialization succeeds issues exactly one store write, under the
derived key, with expiry `get_ttl_for_key(resource_type)` attached to
that write; a null fetch result issues zero writes. -/
theorem cache_first_write_through {α : Type} (ctx : CacheCtx α)
    (kt : RedisKeyType) (params : Params) (k : String)
    (hkey : get_key kt params = .ok k) (hmiss : CacheMiss ctx k) :
    (∀ (d : α) (payload : String), ctx.ser d = .ok payload →
       (cache_first ctx kt params (.ok (some d))).2.2
         = [⟨k, get_ttl_for_key kt, payload⟩]) ∧
    (cache_first ctx kt params (.ok (none : Option α))).2.2 = [] := by
  constructor
  · intro d payload hser
    unfold cache_first
    rw [get_from_cache_of_miss ctx kt params k hkey hmiss]
    dsimp only
    have hc : set_cache ctx kt params d = .ok [⟨k, get_ttl_for_key kt, payload⟩] := by
      unfold set_cache
      rw [hkey]
      dsimp only
      rw [hser]
      dsimp only
      cases ctx.setexErr k (get_ttl_for_key kt) payload with
      | none => rfl
      | some e => rfl
    rw [hc]
  · unfold cache_first
    rw [get_from_cache_of_miss ctx kt params k hkey hmiss]

/-- Witness for C4: on an empty store, a fetched value is written once
under the derived key with the 60-second quote TTL, and a null fetch
writes nothing. -/
theorem cache_first_write_through_witness :
    (cache_first
      (⟨fun _ => .ok none, fun _ => .ok true, fun _ => .ok "1",
        fun _ _ _ => none⟩ : CacheCtx Bool)
      .stock_quote [("symbol", some "AAPL")] (.ok (some true))).2.2
      = [⟨"cache:stock_quote:symbol=AAPL", 60, "1"⟩] ∧
    (cache_first
      (⟨fun _ => .ok none, fun _ => .ok true, fun _ => .ok "1",
        fun _ _ _ => none⟩ : CacheCtx Bool)
      .stock_quote [("symbol", some "AAPL")] (.ok (none : Option Bool))).2.2 = [] :=
  ⟨(cache_first_write_through _ .stock_quote [("symbol", some "AAPL")] "cache:stock_quote:symbol=AAPL"
      rfl (Or.inr (Or.inl rfl))).1 true "1" rfl,
   (cache_first_write_through _ .stock_quote [("symbol", some "AAPL")] "cache:stock_quote:symbol=AAPL"
      rfl (Or.inr (Or.inl rfl))).2⟩

theorem toDigitsLE_eq (fuel n : Nat) (h : n ≤ fuel) :
    toDigitsLE fuel n = Nat.digits 10 n := by
  induction fuel generalizing n with
  | zero =>
    have hn : n = 0 := by omega
    subst hn
    simp [toDigitsLE]
  | succ f ih =>
    by_cases hn : n = 0
    · subst hn
      simp [toDigitsLE]
    · rw [toDigitsLE, if_neg hn,
        Nat.digits_def' (by norm_num : (1:Nat) < 10) (Nat.pos_of_ne_zero hn),
        ih (n / 10) (by omega)]

theorem natOfDigits_from (l : List Char) (a : Nat) :
    l.foldl (fun acc c => acc * 10 + charToDigitNat c) a
      = a * 10 ^ l.length + natOfDigits l := by
  induction l generalizing a with
  | nil => simp [natOfDigits]
  | cons c t ih =>
    simp only [List.foldl_cons, List.length_cons, natOfDigits]
    rw [ih (a * 10 + charToDigitNat c), ih (0 * 10 + charToDigitNat c)]
    ring

theorem natOfDigits_append (a b : List Char) :
    natOfDigits (a ++ b) = natOfDigits a * 10 ^ b.length + natOfDigits b := by
  unfold natOfDigits
  rw [List.foldl_append]
  exact natOfDigits_from b _

theorem natOfDigits_ofDigits (ds : List Nat) (h : ∀ d ∈ ds, d < 10) :
    natOfDigits ((ds.reverse).map Nat.digitChar) = Nat.ofDigits 10 ds := by
  induction ds with
  | nil => rfl
  | cons d t ih =>
    rw [List.reverse_cons, List.map_append, natOfDigits_append]
    simp only [List.map_cons, List.map_nil, List.length_cons, List.length_nil]
    have hd : d < 10 := h d (by simp)
    have h1 : natOfDigits [Nat.digitChar d] = d := by
      interval_cases d <;> rfl
    rw [h1, ih (fun x hx => h x (by simp [hx])), Nat.ofDigits_cons, pow_one]
    ring

theorem natOfDigits_coeffDigits (n : Nat) : natOfDigits (coeffDigits n) = n := by
  unfold coeffDigits
  by_cases h : n = 0
  · subst h; rfl
  · rw [if_neg h, toDigitsLE_eq n n le_rfl,
      natOfDigits_ofDigits _ (fun d hd => Nat.digits_lt_base (by norm_num) hd),
      Nat.ofDigits_digits]

theorem coeffDigits_isDigit (n : Nat) : ∀ c ∈ coeffDigits n, c.isDigit = true := by
  unfold coeffDigits
  by_cases h : n = 0
  · rw [if_pos h]; intro c hc; simp only [List.mem_singleton] at hc; subst hc; decide
  · rw [if_neg h, toDigitsLE_eq n n le_rfl]
    intro c hc
    simp only [List.mem_map, List.mem_reverse] at hc
    obtain ⟨d, hd, rfl⟩ := hc
    have : d < 10 := Nat.digits_lt_base (by norm_num) hd
    interval_cases d <;> decide

theorem coeffDigits_ne_nil (n : Nat) : coeffDigits n ≠ [] := by
  unfold coeffDigits
  by_cases h : n = 0
  · rw [if_pos h]; simp
  · rw [if_neg h, toDigitsLE_eq n n le_rfl]
    simp only [ne_eq, List.map_eq_nil_iff, List.reverse_eq_nil_iff]
    exact Nat.digits_ne_nil_iff_ne_zero.mpr h

theorem coeffDigits_length_pos (n : Nat) : 0 < (coeffDigits n).length :=
  List.length_pos.mpr (coeffDigits_ne_nil n)

theorem zeros_isDigit (k : Nat) : ∀ c ∈ zeros k, c.isDigit = true := by
  intro c hc
  rw [List.eq_of_mem_replicate hc]
  decide

theorem natOfDigits_zeros_append (k : Nat) (l : List Char) :
    natOfDigits (zeros k ++ l) = natOfDigits l := by
  induction k with
  | zero => rfl
  | succ j ih =>
    have : zeros (j + 1) = '0' :: zeros j := rfl
    rw [this, List.cons_append]
    show natOfDigits ('0' :: (zeros j ++ l)) = natOfDigits l
    unfold natOfDigits
    simp only [List.foldl_cons]
    show (zeros j ++ l).foldl (fun acc c => acc * 10 + charToDigitNat c) 0 = _
    exact ih

theorem takeWhile_append_all {p : Char → Bool} {a b : List Char}
    (ha : ∀ c ∈ a, p c = true)
    (hb : ∀ c t, b = c :: t → p c = false) :
    (a ++ b).takeWhile p = a ∧ (a ++ b).dropWhile p = b := by
  induction a with
  | nil =>
    cases b with
    | nil => exact ⟨rfl, rfl⟩
    | cons c t =>
      have hc := hb c t rfl
      simp [List.takeWhile_cons, List.dropWhile_cons, hc]
  | cons x s ih =>
    have hx : p x = true := ha x (by simp)
    have ihs := ih (fun c hc => ha c (by simp [hc]))
    simp [List.takeWhile_cons, List.dropWhile_cons, hx, ihs.1, ihs.2]

theorem spanDigits_append (a b : List Char)
    (ha : ∀ c ∈ a, c.isDigit = true)
    (hb : ∀ c t, b = c :: t → c.isDigit = false) :
    spanDigits (a ++ b) = (a, b) := by
  unfold spanDigits
  have h := takeWhile_append_all (p := Char.isDigit) ha hb
  rw [h.1, h.2]

theorem spanDigits_all (a : List Char) (ha : ∀ c ∈ a, c.isDigit = true) :
    spanDigits a = (a, []) := by
  have h := spanDigits_append a [] ha (fun c t h => nomatch h)
  simpa using h

theorem decSignSplit_dash (t : List Char) : decSignSplit ('-' :: t) = (true, t) := by
  simp [decSignSplit]

theorem decSignSplit_plus (t : List Char) : decSignSplit ('+' :: t) = (false, t) := by
  simp [decSignSplit]

theorem decSignSplit_digit (c : Char) (t : List Char) (h : c.isDigit = true) :
    decSignSplit (c :: t) = (false, c :: t) := by
  have h1 : ¬ c = '-' := fun hh => by rw [hh] at h; exact absurd h (by decide)
  have h2 : ¬ c = '+' := fun hh => by rw [hh] at h; exact absurd h (by decide)
  simp [decSignSplit, h1, h2]

theorem decSignSplit_sign (neg : Bool) (c : Char) (rest : List Char)
    (hc : c.isDigit = true) :
    decSignSplit ((if neg then ['-'] else []) ++ (c :: rest)) = (neg, c :: rest) := by
  cases neg
  · rw [if_neg Bool.false_ne_true, List.nil_append]
    exact decSignSplit_digit c rest hc
  · rw [if_pos rfl, List.singleton_append]
    exact decSignSplit_dash _

theorem decExpTail_sciExpChars (fracLen : Nat) (e : Int) :
    decExpTail fracLen (sciExpChars e) = some (e - (fracLen : Int)) := by
  have hspan : spanDigits (coeffDigits e.natAbs) = (coeffDigits e.natAbs, []) :=
    spanDigits_all _ (coeffDigits_isDigit _)
  by_cases he : e < 0
  · have hsign : decSignSplit (sciExpChars e) = (true, coeffDigits e.natAbs) := by
      unfold sciExpChars
      rw [if_pos he, List.singleton_append]
      exact decSignSplit_dash _
    simp only [decExpTail, hsign, hspan]
    rw [if_neg (by simp [coeffDigits_ne_nil])]
    have habs : (e.natAbs : Int) = -e := Int.ofNat_natAbs_of_nonpos (le_of_lt he)
    simp [natOfDigits_coeffDigits, habs]
  · have hsign : decSignSplit (sciExpChars e) = (false, coeffDigits e.natAbs) := by
      unfold sciExpChars
      rw [if_neg he, List.singleton_append]
      exact decSignSplit_plus _
    simp only [decExpTail, hsign, hspan]
    rw [if_neg (by simp [coeffDigits_ne_nil])]
    have habs : (e.natAbs : Int) = e := Int.natAbs_of_nonneg (not_lt.mp he)
    simp [natOfDigits_coeffDigits, habs]

theorem decParse_dot_noE (neg : Bool) (a b : List Char)
    (hane : a ≠ []) (ha : ∀ c ∈ a, c.isDigit = true) (hb : ∀ c ∈ b, c.isDigit = true) :
    decParse ((if neg then ['-'] else []) ++ (a ++ '.' :: b))
      = some ⟨neg, natOfDigits (a ++ b), -(b.length : Int)⟩ := by
  obtain ⟨c, a', rfl⟩ := List.exists_cons_of_ne_nil hane
  have hsign := decSignSplit_sign neg c (a' ++ '.' :: b) (ha c (by simp))
  have hspan1 := spanDigits_append (c :: a') ('.' :: b) ha
    (fun x t hxt => by injection hxt with hx _; subst hx; decide)
  rw [List.cons_append] at hspan1
  have hspan2 := spanDigits_all b hb
  simp only [List.cons_append]
  simp [decParse, hsign, hspan1, hspan2, decExpVal]

theorem decParse_noDot_noE (neg : Bool) (a : List Char)
    (hane : a ≠ []) (ha : ∀ c ∈ a, c.isDigit = true) :
    decParse ((if neg then ['-'] else []) ++ a) = some ⟨neg, natOfDigits a, 0⟩ := by
  obtain ⟨c, a', rfl⟩ := List.exists_cons_of_ne_nil hane
  have hsign := decSignSplit_sign neg c a' (ha c (by simp))
  have hspan := spanDigits_all (c :: a') ha
  simp [decParse, hsign, hspan, decExpVal]

theorem decParse_noDot_E (neg : Bool) (a : List Char) (e : Int)
    (hane : a ≠ []) (ha : ∀ c ∈ a, c.isDigit = true) :
    decParse ((if neg then ['-'] else []) ++ (a ++ 'E' :: sciExpChars e))
      = some ⟨neg, natOfDigits a, e⟩ := by
  obtain ⟨c, a', rfl⟩ := List.exists_cons_of_ne_nil hane
  have hsign := decSignSplit_sign neg c (a' ++ 'E' :: sciExpChars e) (ha c (by simp))
  have hspan1 := spanDigits_append (c :: a') ('E' :: sciExpChars e) ha
    (fun x t hxt => by injection hxt with hx _; subst hx; decide)
  rw [List.cons_append] at hspan1
  simp only [List.cons_append]
  simp [decParse, hsign, hspan1, decExpVal, decExpTail_sciExpChars 0 e]

theorem decParse_dot_E (neg : Bool) (a b : List Char) (e : Int)
    (hane : a ≠ []) (ha : ∀ c ∈ a, c.isDigit = true) (hb : ∀ c ∈ b, c.isDigit = true) :
    decParse ((if neg then ['-'] else []) ++ (a ++ '.' :: (b ++ 'E' :: sciExpChars e)))
      = some ⟨neg, natOfDigits (a ++ b), e - (b.length : Int)⟩ := by
  obtain ⟨c, a', rfl⟩ := List.exists_cons_of_ne_nil hane
  have hsign := decSignSplit_sign neg c (a' ++ '.' :: (b ++ 'E' :: sciExpChars e))
    (ha c (by simp))
  have hspan1 := spanDigits_append (c :: a') ('.' :: (b ++ 'E' :: sciExpChars e)) ha
    (fun x t hxt => by injection hxt with hx _; subst hx; decide)
  rw [List.cons_append] at hspan1
  have hspan2 := spanDigits_append b ('E' :: sciExpChars e) hb
    (fun x t hxt => by injection hxt with hx _; subst hx; decide)
  simp only [List.cons_append]
  simp [decParse, hsign, hspan1, hspan2, decExpVal, decExpTail_sciExpChars b.length e]

/-- Round-trip of the decimal codec at the representation level:
parsing the string printed by `str(Decimal)` recovers the same
(sign, coefficient, exponent) triple, for every finite decimal. -/
theorem decParse_decToChars (d : Dec) : decParse (decToChars d) = some d := by
  have hL1 : 0 < (coeffDigits d.coeff).length := coeffDigits_length_pos d.coeff
  have hLi : (1 : Int) ≤ ((coeffDigits d.coeff).length : Int) := by exact_mod_cast hL1
  have hdigall := coeffDigits_isDigit d.coeff
  have hne := coeffDigits_ne_nil d.coeff
  have hcoeff := natOfDigits_coeffDigits d.coeff
  by_cases hfix : d.exp ≤ 0 ∧ d.exp + ((coeffDigits d.coeff).length : Int) > -6
  · have hdp : decDotplace d = d.exp + ((coeffDigits d.coeff).length : Int) := by
      unfold decDotplace
      rw [if_pos hfix]
    unfold decToChars
    rw [hdp, if_pos rfl, List.append_nil]
    by_cases hdp0 : d.exp + ((coeffDigits d.coeff).length : Int) ≤ 0
    · have hif : decIntFrac (coeffDigits d.coeff)
          (d.exp + ((coeffDigits d.coeff).length : Int))
          = ['0'] ++ '.' :: (zeros (-(d.exp + ((coeffDigits d.coeff).length : Int))).toNat
              ++ coeffDigits d.coeff) := by
        unfold decIntFrac
        rw [if_pos hdp0]
        rfl
      rw [hif, decParse_dot_noE d.neg ['0'] _ (by simp)
        (by intro c hc; simp only [List.mem_singleton] at hc; subst hc; decide)
        (by intro c hc
            rcases List.mem_append.mp hc with h | h
            · exact zeros_isDigit _ c h
            · exact hdigall c h)]
      have hc2 : natOfDigits (['0']
          ++ (zeros (-(d.exp + ((coeffDigits d.coeff).length : Int))).toNat
              ++ coeffDigits d.coeff)) = d.coeff := by
        show natOfDigits
          (zeros ((-(d.exp + ((coeffDigits d.coeff).length : Int))).toNat + 1)
            ++ coeffDigits d.coeff) = d.coeff
        rw [natOfDigits_zeros_append, hcoeff]
      have he2 : -(((zeros (-(d.exp + ((coeffDigits d.coeff).length : Int))).toNat
          ++ coeffDigits d.coeff).length : Int)) = d.exp := by
        rw [List.length_append]
        unfold zeros
        rw [List.length_replicate]
        push_cast
        omega
      rw [hc2, he2]
    · by_cases hL2 : ((coeffDigits d.coeff).length : Int)
          ≤ d.exp + ((coeffDigits d.coeff).length : Int)
      · have hz : (d.exp + ((coeffDigits d.coeff).length : Int)
            - ((coeffDigits d.coeff).length : Int)).toNat = 0 := by omega
        have hif : decIntFrac (coeffDigits d.coeff)
            (d.exp + ((coeffDigits d.coeff).length : Int)) = coeffDigits d.coeff := by
          unfold decIntFrac
          rw [if_neg hdp0, if_pos hL2, hz]
          exact List.append_nil _
        rw [hif, decParse_noDot_noE d.neg _ hne hdigall]
        have he0 : d.exp = 0 := by omega
        rw [hcoeff, ← he0]
      · have hif : decIntFrac (coeffDigits d.coeff)
            (d.exp + ((coeffDigits d.coeff).length : Int))
            = (coeffDigits d.coeff).take (d.exp + ((coeffDigits d.coeff).length : Int)).toNat
              ++ '.' :: (coeffDigits d.coeff).drop
                  (d.exp + ((coeffDigits d.coeff).length : Int)).toNat := by
          unfold decIntFrac
          rw [if_neg hdp0, if_neg hL2]
        rw [hif, decParse_dot_noE d.neg _ _
          (by
            have : 0 < ((coeffDigits d.coeff).take
                (d.exp + ((coeffDigits d.coeff).length : Int)).toNat).length := by
              rw [List.length_take]
              omega
            exact List.ne_nil_of_length_pos this)
          (fun c hc => hdigall c (List.take_subset _ _ hc))
          (fun c hc => hdigall c (List.drop_subset _ _ hc))]
        have hc2 : natOfDigits
            ((coeffDigits d.coeff).take (d.exp + ((coeffDigits d.coeff).length : Int)).toNat
              ++ (coeffDigits d.coeff).drop
                  (d.exp + ((coeffDigits d.coeff).length : Int)).toNat) = d.coeff := by
          rw [List.take_append_drop, hcoeff]
        have he2 : -((((coeffDigits d.coeff).drop
            (d.exp + ((coeffDigits d.coeff).length : Int)).toNat).length : Int)) = d.exp := by
          rw [List.length_drop]
          omega
        rw [hc2, he2]
  · have hdp : decDotplace d = 1 := by
      unfold decDotplace
      rw [if_neg hfix]
    have hne1 : d.exp + ((coeffDigits d.coeff).length : Int) ≠ 1 := by omega
    unfold decToChars
    rw [hdp, if_neg hne1]
    by_cases hL2 : ((coeffDigits d.coeff).length : Int) ≤ 1
    · have hz : ((1 : Int) - ((coeffDigits d.coeff).length : Int)).toNat = 0 := by omega
      have hif : decIntFrac (coeffDigits d.coeff) 1 = coeffDigits d.coeff := by
        unfold decIntFrac
        rw [if_neg (by omega : ¬ (1 : Int) ≤ 0), if_pos hL2, hz]
        exact List.append_nil _
      rw [hif, List.append_assoc, decParse_noDot_E d.neg _ _ hne hdigall]
      have he2 : d.exp + ((coeffDigits d.coeff).length : Int) - 1 = d.exp := by omega
      rw [hcoeff, he2]
    · have hif : decIntFrac (coeffDigits d.coeff) 1
          = (coeffDigits d.coeff).take 1 ++ '.' :: (coeffDigits d.coeff).drop 1 := by
        unfold decIntFrac
        rw [if_neg (by omega : ¬ (1 : Int) ≤ 0), if_neg hL2]
        rfl
      rw [hif]
      simp only [List.append_assoc, List.cons_append]
      rw [decParse_dot_E d.neg _ _ _
        (by
          have : 0 < ((coeffDigits d.coeff).take 1).length := by
            rw [List.length_take]
            omega
          exact List.ne_nil_of_length_pos this)
        (fun c hc => hdigall c (List.take_subset _ _ hc))
        (fun c hc => hdigall c (List.drop_subset _ _ hc))]
      have hc2 : natOfDigits ((coeffDigits d.coeff).take 1 ++ (coeffDigits d.coeff).drop 1)
          = d.coeff := by
        rw [List.take_append_drop, hcoeff]
      have he2 : d.exp + ((coeffDigits d.coeff).length : Int) - 1
          - ((((coeffDigits d.coeff).drop 1).length : Nat) : Int) = d.exp := by
        rw [List.length_drop]
        omega
      rw [hc2, he2]

theorem coeffDigits_length_le {n w : Nat} (hw : 0 < w) (h : n < 10 ^ w) :
    (coeffDigits n).length ≤ w := by
  unfold coeffDigits
  by_cases hn : n = 0
  · rw [if_pos hn]
    simpa using hw
  · rw [if_neg hn, toDigitsLE_eq n n le_rfl]
    simp only [List.length_map, List.length_reverse]
    rw [Nat.digits_len 10 n (by norm_num) hn]
    have := Nat.log_lt_of_lt_pow hn h
    omega

theorem padNat_length {n w : Nat} (hw : 0 < w) (h : n < 10 ^ w) :
    (padNat w n).length = w := by
  have hle := coeffDigits_length_le hw h
  unfold padNat zeros
  rw [List.length_append, List.length_replicate]
  omega

theorem padNat_all_digits (w n : Nat) : ∀ c ∈ padNat w n, c.isDigit = true := by
  intro c hc
  rcases List.mem_append.mp hc with h | h
  · exact zeros_isDigit _ c h
  · exact coeffDigits_isDigit n c h

theorem natOfDigits_padNat (w n : Nat) : natOfDigits (padNat w n) = n := by
  unfold padNat
  rw [natOfDigits_zeros_append, natOfDigits_coeffDigits]

theorem parseFixedNat_pad {w n : Nat} (rest : List Char) (hw : 0 < w) (h : n < 10 ^ w) :
    parseFixedNat w (padNat w n ++ rest) = some (n, rest) := by
  have hlen := padNat_length hw h
  have htake : (padNat w n ++ rest).take w = padNat w n := List.take_left' hlen
  have hdrop : (padNat w n ++ rest).drop w = rest := List.drop_left' hlen
  unfold parseFixedNat
  rw [htake, hdrop, if_pos ⟨hlen, List.all_eq_true.mpr (padNat_all_digits w n)⟩,
    natOfDigits_padNat]

theorem expectChar_cons (c : Char) (t : List Char) : expectChar c (c :: t) = some t := by
  simp [expectChar]

theorem tsParseFrac_dot (t : List Char) : tsParseFrac ('.' :: t) = parseFixedNat 6 t := by
  simp [tsParseFrac]

theorem tsParseFrac_nil : tsParseFrac [] = some (0, []) := by
  simp [tsParseFrac]

theorem tsParseFrac_tz (o : Int) :
    tsParseFrac (tsTzChars (some o)) = some (0, tsTzChars (some o)) := by
  simp only [tsTzChars]
  by_cases ho : o < 0
  · rw [if_pos ho]
    simp [tsParseFrac]
  · rw [if_neg ho]
    simp [tsParseFrac]

theorem tsParseTz_nil : tsParseTz [] = some (none, []) := by
  simp [tsParseTz]

theorem tsParseTz_some (o : Int) (hlo : -1439 ≤ o) (hhi : o ≤ 1439) :
    tsParseTz (tsTzChars (some o)) = some (some o, []) := by
  have h100 : (10 : Nat) ^ 2 = 100 := by norm_num
  have hh : o.natAbs / 60 < 10 ^ 2 := by rw [h100]; omega
  have hm : o.natAbs % 60 < 10 ^ 2 := by rw [h100]; omega
  have hph : ∀ rest, parseFixedNat 2 (padNat 2 (o.natAbs / 60) ++ rest)
      = some (o.natAbs / 60, rest) :=
    fun rest => parseFixedNat_pad rest (by norm_num) hh
  have hpm : parseFixedNat 2 (padNat 2 (o.natAbs % 60)) = some (o.natAbs % 60, []) := by
    have h := parseFixedNat_pad (w := 2) (n := o.natAbs % 60) [] (by norm_num) hm
    rwa [List.append_nil] at h
  simp only [tsTzChars]
  by_cases ho : o < 0
  · rw [if_pos ho]
    simp only [tsParseTz, List.cons_append, hph, expectChar_cons, hpm]
    have harith : -(((o.natAbs / 60 : Nat) : Int) * 60 + ((o.natAbs % 60 : Nat) : Int)) = o := by
      omega
    rw [harith]
  · rw [if_neg ho]
    simp only [tsParseTz, List.cons_append, hph, expectChar_cons, hpm]
    have harith : (((o.natAbs / 60 : Nat) : Int) * 60 + ((o.natAbs % 60 : Nat) : Int)) = o := by
      omega
    rw [harith]

/-- Round-trip of the timestamp codec: parsing the `isoformat` rendering
of any in-range datetime recovers all fields, including the timezone
offset (or its absence). -/
theorem tsParse_tsToChars (t : Ts) (hv : t.Valid) : tsParse (tsToChars t) = some t := by
  obtain ⟨y, mo, d, h, mi, se, us, tz⟩ := t
  unfold Ts.Valid at hv
  dsimp only at hv
  obtain ⟨hy1, hy2, hm1, hm2, hd1, hd2, hh, hmi, hse, hus, htz⟩ := hv
  have h104 : (10 : Nat) ^ 4 = 10000 := by norm_num
  have h102 : (10 : Nat) ^ 2 = 100 := by norm_num
  have h106 : (10 : Nat) ^ 6 = 1000000 := by norm_num
  have p4 : ∀ rest, parseFixedNat 4 (padNat 4 y ++ rest) = some (y, rest) :=
    fun rest => parseFixedNat_pad rest (by norm_num) (by rw [h104]; omega)
  have pmo : ∀ rest, parseFixedNat 2 (padNat 2 mo ++ rest) = some (mo, rest) :=
    fun rest => parseFixedNat_pad rest (by norm_num) (by rw [h102]; omega)
  have pd : ∀ rest, parseFixedNat 2 (padNat 2 d ++ rest) = some (d, rest) :=
    fun rest => parseFixedNat_pad rest (by norm_num) (by rw [h102]; omega)
  have ph : ∀ rest, parseFixedNat 2 (padNat 2 h ++ rest) = some (h, rest) :=
    fun rest => parseFixedNat_pad rest (by norm_num) (by rw [h102]; omega)
  have pmi : ∀ rest, parseFixedNat 2 (padNat 2 mi ++ rest) = some (mi, rest) :=
    fun rest => parseFixedNat_pad rest (by norm_num) (by rw [h102]; omega)
  have pse : ∀ rest, parseFixedNat 2 (padNat 2 se ++ rest) = some (se, rest) :=
    fun rest => parseFixedNat_pad rest (by norm_num) (by rw [h102]; omega)
  simp only [tsToChars, List.append_assoc, List.cons_append]
  simp only [tsParse, p4, expectChar_cons, pmo, pd, ph, pmi, pse]
  by_cases hus0 : us = 0
  · subst hus0
    have hfc : tsFracChars 0 = [] := by simp [tsFracChars]
    cases tz with
    | none =>
      have htzc : tsTzChars none = [] := by simp [tsTzChars]
      simp only [hfc, htzc, List.nil_append, tsParseFrac_nil, tsParseTz_nil]
      simp
    | some o =>
      obtain ⟨ho1, ho2⟩ := htz
      simp only [hfc, List.nil_append, tsParseFrac_tz, tsParseTz_some o ho1 ho2]
      simp
  · have hfc : tsFracChars us = '.' :: padNat 6 us := by simp [tsFracChars, hus0]
    have pus : ∀ rest, parseFixedNat 6 (padNat 6 us ++ rest) = some (us, rest) :=
      fun rest => parseFixedNat_pad rest (by norm_num) (by rw [h106]; omega)
    cases tz with
    | none =>
      have htzc : tsTzChars none = [] := by simp [tsTzChars]
      have pus0 : parseFixedNat 6 (padNat 6 us) = some (us, []) := by
        have hp := pus []
        rwa [List.append_nil] at hp
      simp only [hfc, htzc, List.append_nil, List.cons_append, tsParseFrac_dot, pus0,
        tsParseTz_nil]
      simp
    | some o =>
      obtain ⟨ho1, ho2⟩ := htz
      simp only [hfc, List.cons_append, tsParseFrac_dot, pus,
        tsParseTz_some o ho1 ho2]
      simp

theorem decodePrim_encodePrim (p : Prim) (k : PrimKind)
    (hk : primHasKind p k = true) (hv : primValid p) :
    decodePrim k (encodePrim p) = some p := by
  cases p with
  | pstr s =>
    cases k with
    | kstr => rfl
    | kint => exact absurd hk (by simp [primHasKind])
    | kdec => exact absurd hk (by simp [primHasKind])
    | kts => exact absurd hk (by simp [primHasKind])
  | pint n =>
    cases k with
    | kint => rfl
    | kstr => exact absurd hk (by simp [primHasKind])
    | kdec => exact absurd hk (by simp [primHasKind])
    | kts => exact absurd hk (by simp [primHasKind])
  | pdec d =>
    cases k with
    | kdec =>
      simp only [encodePrim, decodePrim]
      rw [decParse_decToChars]
      rfl
    | kstr => exact absurd hk (by simp [primHasKind])
    | kint => exact absurd hk (by simp [primHasKind])
    | kts => exact absurd hk (by simp [primHasKind])
  | pts t =>
    cases k with
    | kts =>
      simp only [encodePrim, decodePrim]
      rw [tsParse_tsToChars t hv]
      rfl
    | kstr => exact absurd hk (by simp [primHasKind])
    | kint => exact absurd hk (by simp [primHasKind])
    | kdec => exact absurd hk (by simp [primHasKind])

theorem mapM_decodePrim_encodePrim (kp : PrimKind) (ps : List Prim)
    (hk : ∀ p ∈ ps, primHasKind p kp = true) (hv : ∀ p ∈ ps, primValid p) :
    (ps.map encodePrim).mapM (decodePrim kp) = some ps := by
  induction ps with
  | nil => rfl
  | cons p t ih =>
    rw [List.map_cons, List.mapM_cons,
      decodePrim_encodePrim p kp (hk p (by simp)) (hv p (by simp)),
      ih (fun q hq => hk q (by simp [hq])) (fun q hq => hv q (by simp [hq]))]
    rfl

theorem decodeFieldVal_encodeFieldVal (v : FieldVal) (k : FieldKind)
    (hk : fieldHasKind v k = true) (hv : fieldValid v) :
    decodeFieldVal k (encodeFieldVal v) = some v := by
  cases v with
  | reqd p =>
    cases k with
    | prim kp =>
      have hk' : primHasKind p kp = true := by simpa [fieldHasKind] using hk
      have hd := decodePrim_encodePrim p kp hk' hv
      simp only [encodeFieldVal, decodeFieldVal, hd]
      rfl
    | opt kp => simp [fieldHasKind] at hk
    | lst kp => simp [fieldHasKind] at hk
  | opt o =>
    cases k with
    | prim kp => cases o <;> simp [fieldHasKind] at hk
    | lst kp => cases o <;> simp [fieldHasKind] at hk
    | opt kp =>
      cases o with
      | none => rfl
      | some p =>
        have hk' : primHasKind p kp = true := by simpa [fieldHasKind] using hk
        have hv' : primValid p := hv
        have hd := decodePrim_encodePrim p kp hk' hv'
        cases p <;>
          (simp only [encodePrim] at hd
           simp [encodeFieldVal, encodePrim, decodeFieldVal, hd])
  | lst ps =>
    cases k with
    | prim kp => simp [fieldHasKind] at hk
    | opt kp => simp [fieldHasKind] at hk
    | lst kp =>
      have hk' : ∀ p ∈ ps, primHasKind p kp = true := by
        simpa [fieldHasKind, List.all_eq_true] using hk
      have hv' : ∀ p ∈ ps, primValid p := hv
      simp only [encodeFieldVal, decodeFieldVal,
        mapM_decodePrim_encodePrim kp ps hk' hv']
      rfl

theorem lookup_map_encode (r : Record) (n : String) :
    List.lookup n (r.map fun nv => (nv.1, encodeFieldVal nv.2))
      = (List.lookup n r).map encodeFieldVal := by
  induction r with
  | nil => rfl
  | cons x t ih =>
    obtain ⟨m, v⟩ := x
    simp only [List.map_cons, List.lookup]
    cases hnm : (n == m)
    · simp only [ih]
    · rfl

theorem lookup_self_of_nodup (r : Record) (hnd : (r.map Prod.fst).Nodup) :
    ∀ nv ∈ r, List.lookup nv.1 r = some nv.2 := by
  induction r with
  | nil => intro nv h; cases h
  | cons x t ih =>
    intro nv hnv
    obtain ⟨m, v⟩ := x
    have hnd' : (t.map Prod.fst).Nodup := (List.nodup_cons.mp (by simpa using hnd)).2
    rcases List.mem_cons.mp hnv with rfl | hmem
    · simp [List.lookup]
    · have hne : nv.1 ≠ m := by
        intro hc
        have hmm : nv.1 ∈ t.map Prod.fst := List.mem_map_of_mem Prod.fst hmem
        rw [hc] at hmm
        exact (List.nodup_cons.mp (by simpa using hnd)).1 hmm
      simp only [List.lookup]
      rw [show (nv.1 == m) = false from beq_eq_false_iff_ne.mpr hne]
      exact ih hnd' nv hmem

theorem decodeFields_encode_aux (rfull : Record) (s : Schema) (r : Record)
    (hwt : recordWellTyped s r = true)
    (hv : recordValid r)
    (hlook : ∀ nv ∈ r, List.lookup nv.1 rfull = some nv.2) :
    decodeFields (rfull.map fun nv => (nv.1, encodeFieldVal nv.2)) s = some r := by
  induction s generalizing r with
  | nil =>
    cases r with
    | nil => rfl
    | cons a b => simp [recordWellTyped] at hwt
  | cons nk s' ih =>
    obtain ⟨n, k⟩ := nk
    cases r with
    | nil => simp [recordWellTyped] at hwt
    | cons mv r' =>
      obtain ⟨m, v⟩ := mv
      simp only [recordWellTyped, Bool.and_eq_true, beq_iff_eq] at hwt
      obtain ⟨⟨hnm, hfk⟩, hwt'⟩ := hwt
      subst hnm
      have hl : List.lookup n rfull = some v := hlook (n, v) (by simp)
      rw [decodeFields, lookup_map_encode rfull n, hl]
      dsimp only [Option.map]
      rw [decodeFieldVal_encodeFieldVal v k hfk (hv (n, v) (by simp))]
      dsimp only
      rw [ih r' hwt' (fun nv h => hv nv (by simp [h])) (fun nv h => hlook nv (by simp [h]))]

theorem recordWellTyped_names (s : Schema) (r : Record)
    (h : recordWellTyped s r = true) : r.map Prod.fst = s.map Prod.fst := by
  induction s generalizing r with
  | nil =>
    cases r with
    | nil => rfl
    | cons a b => simp [recordWellTyped] at h
  | cons nk s' ih =>
    obtain ⟨n, k⟩ := nk
    cases r with
    | nil => simp [recordWellTyped] at h
    | cons mv r' =>
      obtain ⟨m, v⟩ := mv
      simp only [recordWellTyped, Bool.and_eq_true, beq_iff_eq] at h
      obtain ⟨⟨hnm, _⟩, hwt'⟩ := h
      subst hnm
      simp only [List.map_cons]
      rw [ih r' hwt']

theorem decodeRecord_encodeRecord (s : Schema) (r : Record)
    (hnd : (s.map Prod.fst).Nodup)
    (hwt : recordWellTyped s r = true) (hv : recordValid r) :
    decodeRecord s (encodeRecord r) = some r := by
  have hndr : (r.map Prod.fst).Nodup := by
    rw [recordWellTyped_names s r hwt]
    exact hnd
  show decodeFields (r.map fun nv => (nv.1, encodeFieldVal nv.2)) s = some r
  exact decodeFields_encode_aux r s r hwt hv (lookup_self_of_nodup r hndr)

theorem mapM_decodeRecord_encodeRecord (s : Schema) (rs : List Record)
    (hnd : (s.map Prod.fst).Nodup)
    (hwt : ∀ r ∈ rs, recordWellTyped s r = true)
    (hv : ∀ r ∈ rs, recordValid r) :
    (rs.map encodeRecord).mapM (decodeRecord s) = some rs := by
  induction rs with
  | nil => rfl
  | cons r t ih =>
    rw [List.map_cons, List.mapM_cons,
      decodeRecord_encodeRecord s r hnd (hwt r (by simp)) (hv r (by simp)),
      ih (fun q hq => hwt q (by simp [hq])) (fun q hq => hv q (by simp [hq]))]
    rfl

/-- C2: for every model class (schema with distinct field names) and
every well-typed, in-range value of it — a single record or a
homogeneous list of records whose fields are the supported kinds —
`deserialize_model` of `serialize_model` returns exactly the value, in
both the single-record and the list shape. -/
theorem deserialize_serialize_model (s : Schema) (x : ModelVal)
    (hnd : (s.map Prod.fst).Nodup)
    (hwt : modelWellTyped s x = true)
    (hv : modelValid x) :
    deserialize_model s (serialize_model x) = some x := by
  cases x with
  | single r =>
    have hwt' : recordWellTyped s r = true := hwt
    have hv' : recordValid r := hv
    have hd := decodeRecord_encodeRecord s r hnd hwt' hv'
    show (decodeRecord s (encodeRecord r)).map ModelVal.single = some (.single r)
    rw [hd]
    rfl
  | listOf rs =>
    have hwt' : ∀ r ∈ rs, recordWellTyped s r = true := by
      simpa [modelWellTyped, List.all_eq_true] using hwt
    have hv' : ∀ r ∈ rs, recordValid r := hv
    show ((rs.map encodeRecord).mapM (decodeRecord s)).map ModelVal.listOf
      = some (.listOf rs)
    rw [mapM_decodeRecord_encodeRecord s rs hnd hwt' hv']
    rfl

/-- Witness for C2: the concrete quote round-trips through the codec,
both as a single record and as a one-element list. -/
theorem deserialize_serialize_model_witness :
    deserialize_model quoteSchema (serialize_model (.single sampleQuote))
      = some (.single sampleQuote) ∧
    deserialize_model quoteSchema (serialize_model (.listOf [sampleQuote, sampleQuote]))
      = some (.listOf [sampleQuote, sampleQuote]) :=
  ⟨deserialize_serialize_model quoteSchema (.single sampleQuote)
      (by decide) (by decide) (by decide),
   deserialize_serialize_model quoteSchema (.listOf [sampleQuote, sampleQuote])
      (by decide) (by decide) (by decide)⟩

theorem hasExplicitOffset_append_tz (pre : List Char) (o : Int)
    (hlo : -1439 ≤ o) (hhi : o ≤ 1439) :
    hasExplicitOffset (pre ++ tsTzChars (some o)) = true := by
  have h100 : (10 : Nat) ^ 2 = 100 := by norm_num
  have hh : o.natAbs / 60 < 10 ^ 2 := by rw [h100]; omega
  have hm : o.natAbs % 60 < 10 ^ 2 := by rw [h100]; omega
  have hlh := padNat_length (by norm_num : 0 < 2) hh
  have hlm := padNat_length (by norm_num : 0 < 2) hm
  obtain ⟨a, b, hab⟩ := List.length_eq_two.mp hlh
  obtain ⟨c2, d2, hcd⟩ := List.length_eq_two.mp hlm
  have hdig := padNat_all_digits 2 (o.natAbs / 60)
  have hdig2 := padNat_all_digits 2 (o.natAbs % 60)
  rw [hab] at hdig
  rw [hcd] at hdig2
  have ha' : a.isDigit = true := hdig a (by simp)
  have hb' : b.isDigit = true := hdig b (by simp)
  have hc' : c2.isDigit = true := hdig2 c2 (by simp)
  have hd' : d2.isDigit = true := hdig2 d2 (by simp)
  simp only [tsTzChars, hab, hcd]
  by_cases ho0 : o < 0
  · rw [if_pos ho0]
    simp [hasExplicitOffset, List.reverse_append, ha', hb', hc', hd']
  · rw [if_neg ho0]
    simp [hasExplicitOffset, List.reverse_append, ha', hb', hc', hd']

/-- C8 counterexample: the repository's own models accept naive (not
timezone-aware) timestamps — the repository test suite itself serializes
`datetime(2024, 5, 1, 15, 30)` — and `isoformat()` renders a naive
timestamp with no UTC offset, so encoding does not always produce a
string with an explicit UTC offset. -/
theorem encode_naive_timestamp_no_offset :
    (⟨2024, 5, 1, 15, 30, 0, 0, none⟩ : Ts).Valid ∧
    serialize_model (.single [("timestamp",
      FieldVal.reqd (.pts ⟨2024, 5, 1, 15, 30, 0, 0, none⟩))])
      = .jobj [("timestamp", Json.jstr "2024-05-01T15:30:00")] ∧
    hasExplicitOffset "2024-05-01T15:30:00".data = false := by
  refine ⟨by decide, ?_, by decide⟩
  have hts : String.mk (tsToChars ⟨2024, 5, 1, 15, 30, 0, 0, none⟩)
      = "2024-05-01T15:30:00" := by decide
  show Json.jobj [("timestamp",
      Json.jstr (String.mk (tsToChars ⟨2024, 5, 1, 15, 30, 0, 0, none⟩)))] = _
  rw [hts]

theorem hasExplicitOffset_end_seconds (pre : List Char) (mi se : Nat)
    (hmi : mi < 10 ^ 2) (hse : se < 10 ^ 2) :
    hasExplicitOffset (pre ++ ':' :: (padNat 2 mi ++ ':' :: padNat 2 se)) = false := by
  obtain ⟨a, b, hab⟩ := List.length_eq_two.mp (padNat_length (by norm_num) hmi)
  obtain ⟨c2, d2, hcd⟩ := List.length_eq_two.mp (padNat_length (by norm_num) hse)
  rw [hab, hcd]
  have hrev : (pre ++ ':' :: ([a, b] ++ ':' :: [c2, d2])).reverse
      = d2 :: c2 :: ':' :: b :: a :: ':' :: pre.reverse := by
    simp
  unfold hasExplicitOffset
  rw [hrev]
  simp

theorem hasExplicitOffset_end_frac (pre : List Char) (us : Nat) (hus : us < 10 ^ 6) :
    hasExplicitOffset (pre ++ '.' :: padNat 6 us) = false := by
  have hlen : (padNat 6 us).length = 6 := padNat_length (by norm_num) hus
  have hrlen : (padNat 6 us).reverse.length = 6 := by simp [hlen]
  obtain ⟨e1, p1, h1⟩ := List.exists_cons_of_ne_nil
    (l := (padNat 6 us).reverse) (by intro hc; rw [hc] at hrlen; simp at hrlen)
  obtain ⟨e2, p2, h2⟩ := List.exists_cons_of_ne_nil
    (l := p1) (by intro hc; rw [h1, hc] at hrlen; simp at hrlen)
  obtain ⟨e3, p3, h3⟩ := List.exists_cons_of_ne_nil
    (l := p2) (by intro hc; rw [h1, h2, hc] at hrlen; simp at hrlen)
  have he3 : e3.isDigit = true := by
    have hm : e3 ∈ (padNat 6 us).reverse := by rw [h1, h2, h3]; simp
    exact padNat_all_digits 6 us e3 (List.mem_reverse.mp hm)
  have hne : e3 ≠ ':' := by
    intro hc
    rw [hc] at he3
    exact absurd he3 (by decide)
  have hrev : (pre ++ '.' :: padNat 6 us).reverse
      = e1 :: e2 :: e3 :: (p3 ++ '.' :: pre.reverse) := by
    rw [List.reverse_append, List.reverse_cons, h1, h2, h3]
    simp
  unfold hasExplicitOffset
  rw [hrev]
  split
  · rename_i heq
    injection heq with q1 heq
    injection heq with q2 heq
    injection heq with q3 heq
    exact absurd q3 hne
  · rfl

/-- C8 (amended): every exact-decimal field is encoded as the canonical
`str(Decimal)` string (so `bid_price = 150.10` is stored as the literal
`"150.10"`), and every timestamp field is encoded as its `isoformat`
string, which carries an explicit UTC offset exactly for timezone-aware
timestamps (naive timestamps are encoded without an offset). -/
theorem encode_decimal_and_timestamp_fields :
    (∀ (r : Record) (n : String) (dv : Dec) (fs : List (String × Json)),
       (n, FieldVal.reqd (.pdec dv)) ∈ r → encodeRecord r = .jobj fs →
       (n, Json.jstr (String.mk (decToChars dv))) ∈ fs) ∧
    (∀ (r : Record) (n : String) (t : Ts) (fs : List (String × Json)),
       (n, FieldVal.reqd (.pts t)) ∈ r → encodeRecord r = .jobj fs →
       (n, Json.jstr (String.mk (tsToChars t))) ∈ fs) ∧
    (∀ (t : Ts) (o : Int), t.Valid → t.tzMinutes = some o →
       hasExplicitOffset (tsToChars t) = true) ∧
    (∀ t : Ts, t.Valid → t.tzMinutes = none →
       hasExplicitOffset (tsToChars t) = false) ∧
    String.mk (decToChars ⟨false, 15010, -2⟩) = "150.10" := by
  refine ⟨?_, ?_, ?_, ?_, by decide⟩
  · intro r n dv fs hmem hfs
    have h := List.mem_map_of_mem (fun nv => (nv.1, encodeFieldVal nv.2)) hmem
    have hfs' : fs = r.map fun nv => (nv.1, encodeFieldVal nv.2) :=
      (Json.jobj.inj hfs).symm
    rw [hfs']
    simpa [encodeFieldVal, encodePrim] using h
  · intro r n t fs hmem hfs
    have h := List.mem_map_of_mem (fun nv => (nv.1, encodeFieldVal nv.2)) hmem
    have hfs' : fs = r.map fun nv => (nv.1, encodeFieldVal nv.2) :=
      (Json.jobj.inj hfs).symm
    rw [hfs']
    simpa [encodeFieldVal, encodePrim] using h
  · intro t o hv ho
    obtain ⟨_, _, _, _, _, _, _, _, _, _, htz⟩ := hv
    rw [ho] at htz
    obtain ⟨hlo, hhi⟩ := htz
    unfold tsToChars
    rw [ho, ← List.append_assoc]
    exact hasExplicitOffset_append_tz _ o hlo hhi
  · intro t hv ho
    have h102 : (10 : Nat) ^ 2 = 100 := by norm_num
    have h106 : (10 : Nat) ^ 6 = 1000000 := by norm_num
    obtain ⟨_, _, _, _, _, _, _, hmi2, hse2, hus2, _⟩ := hv
    by_cases hus0 : t.microsecond = 0
    · have hshape : tsToChars t
          = (padNat 4 t.year ++ '-' :: padNat 2 t.month ++ '-' :: padNat 2 t.day ++
             'T' :: padNat 2 t.hour)
            ++ ':' :: (padNat 2 t.minute ++ ':' :: padNat 2 t.second) := by
        unfold tsToChars
        rw [ho, hus0]
        simp [tsFracChars, tsTzChars]
      rw [hshape]
      exact hasExplicitOffset_end_seconds _ t.minute t.second
        (by rw [h102]; omega) (by rw [h102]; omega)
    · have hshape : tsToChars t
          = (padNat 4 t.year ++ '-' :: padNat 2 t.month ++ '-' :: padNat 2 t.day ++
             'T' :: padNat 2 t.hour ++ ':' :: padNat 2 t.minute ++
             ':' :: padNat 2 t.second)
            ++ '.' :: padNat 6 t.microsecond := by
        unfold tsToChars
        rw [ho]
        simp [tsFracChars, hus0, tsTzChars]
      rw [hshape]
      exact hasExplicitOffset_end_frac _ t.microsecond (by rw [h106]; omega)

/-- Witness for the amended C8: encoding the sample quote record stores
`bid_price` as the literal string `"150.10"`, the aware sample
timestamp's rendering carries an explicit offset, and the naive one's
carries none. -/
theorem encode_decimal_and_timestamp_fields_witness :
    ("bid_price", Json.jstr (String.mk (decToChars ⟨false, 15010, -2⟩)))
      ∈ [("bid_price", Json.jstr (String.mk (decToChars ⟨false, 15010, -2⟩)))] ∧
    hasExplicitOffset (tsToChars ⟨2024, 5, 1, 15, 30, 0, 0, some 0⟩) = true ∧
    hasExplicitOffset (tsToChars ⟨2024, 5, 1, 15, 30, 0, 0, none⟩) = false :=
  ⟨encode_decimal_and_timestamp_fields.1
      [("bid_price", FieldVal.reqd (.pdec ⟨false, 15010, -2⟩))] "bid_price"
      ⟨false, 15010, -2⟩ _ (by simp) rfl,
   encode_decimal_and_timestamp_fields.2.2.1 ⟨2024, 5, 1, 15, 30, 0, 0, some 0⟩ 0
      (by decide) rfl,
   encode_decimal_and_timestamp_fields.2.2.2.1 ⟨2024, 5, 1, 15, 30, 0, 0, none⟩
      (by decide) rfl⟩

end TradingBot
